import Mathlib

/-!
Verification of the bintray-cleanup script (`bintray_cleanup/main.py`).

The development shallowly embeds the core logic of the script:

* `apply_date_cutoff` — the age partitioner (`main.py` lines 158–182);
  wall-clock time is a parameter `now : Int` (seconds), `created` fields
  are `Int` timestamps, and Python's stable `sorted(key=...)` is embedded
  as `List.mergeSort` on the `created` key (both are stable sorts by the
  same key, hence extensionally equal).
* `group_versions_by_package` — grouping (`main.py` lines 129–133);
  a Python insertion-ordered dict is embedded as an association list.
* `rescue` / `selectDeletions` — the keep-at-least-one selection phase of
  `_delete_old_versions` (`main.py` lines 242–253).
* `execAll` / `deleteOldVersionsRun` — the confirm/dry-run/delete executor
  (`main.py` lines 255–314); the interactive confirmation prompt is an
  oracle `confirm : Nat → Bool` consulted once per prompt in order, the
  transport is an oracle `httpOk : Version → Bool` (`False` = non-2xx
  response, which `raise_for_status` turns into an exception), and the
  observable behaviour is recorded as a list of `Event`s.
* a small store model (`Store`, `groupH`, `rescueH`, `selectH`) embedding
  Python's mutable lists, used for the frame/aliasing claims about the
  selection phase.
-/

/-- A version record, as fetched and enriched by the loader.  The Python
side is an open dict; the fields below are the ones the core logic reads.
Timestamps are integers (seconds). -/
structure Version where
  owner : String
  repo : String
  package : String
  name : String
  created : Int
  updated : Int
deriving DecidableEq, Repr

/-- Result of `apply_date_cutoff` (`main.py` lines 151–155). -/
structure DateCutoffResult where
  cutoff : Int
  old : List Version
  new : List Version
deriving DecidableEq, Repr

/-- Seconds in a day: the scale of `timedelta(days=older_than_days)`. -/
def secondsPerDay : Int := 86400

/-- Python's `sorted(..., key=lambda v: v["created"])`: a stable sort
ascending by the `created` key, embedded as a stable merge sort. -/
def sortByCreated (l : List Version) : List Version :=
  l.mergeSort (fun a b => a.created ≤ b.created)

/-- `apply_date_cutoff` (`main.py` lines 158–182): partition `versions`
into those created strictly before `cutoff = now - older_than_days days`
and those created on/after it, each part sorted ascending by `created`
with Python's stable sort. -/
def apply_date_cutoff (now : Int) (versions : List Version)
    (older_than_days : Int) : DateCutoffResult :=
  let cutoff := now - older_than_days * secondsPerDay
  let old_versions :=
    sortByCreated (versions.filter (fun v => v.created < cutoff))
  let new_versions :=
    sortByCreated (versions.filter (fun v => cutoff ≤ v.created))
  { cutoff := cutoff, old := old_versions, new := new_versions }

/-- Lookup in an association list (Python `package in dict` /
`dict[package]`), matching the first entry with the given key. -/
def findGroup {α : Type} : List (String × α) → String → Option α
  | [], _ => none
  | (k, v) :: rest, p => if k = p then some v else findGroup rest p

/-- One step of `group_versions_by_package`: append `v` to the group of
`v.package`, creating the group at the end if absent (`defaultdict(list)`
with insertion-ordered keys). -/
def addToGroup (acc : List (String × List Version)) (v : Version) :
    List (String × List Version) :=
  match acc with
  | [] => [(v.package, [v])]
  | (k, vs) :: rest =>
    if k = v.package then (k, vs ++ [v]) :: rest
    else (k, vs) :: addToGroup rest v

/-- `group_versions_by_package` (`main.py` lines 129–133). -/
def group_versions_by_package (versions : List Version) :
    List (String × List Version) :=
  versions.foldl addToGroup []

/-- The rescue loop of `_delete_old_versions` (`main.py` lines 245–253):
walk the delete groups in order; a package absent from the keep mapping
has its last (most recent) candidate popped and inserted as its sole keep
entry.  Python's `list.pop()` on an empty group would raise `IndexError`;
grouping never produces an empty group, so the `getLast? = none` branch is
unreachable and embedded as a no-op.  Returns (toKeep, toDelete). -/
def rescue (toKeep : List (String × List Version)) :
    List (String × List Version) →
    List (String × List Version) × List (String × List Version)
  | [] => (toKeep, [])
  | (p, vs) :: rest =>
    if (findGroup toKeep p).isSome then
      let r := rescue toKeep rest
      (r.1, (p, vs) :: r.2)
    else
      match vs.getLast? with
      | some preserve =>
        let r := rescue (toKeep ++ [(p, [preserve])]) rest
        (r.1, (p, vs.dropLast) :: r.2)
      | none =>
        let r := rescue toKeep rest
        (r.1, (p, vs) :: r.2)

/-- The selection phase of `_delete_old_versions` (`main.py` lines
242–253): group new/old by package, then apply the rescue loop.
Returns (toKeep, toDelete). -/
def selectDeletions (cutoff_result : DateCutoffResult) :
    List (String × List Version) × List (String × List Version) :=
  let versions_to_keep := group_versions_by_package cutoff_result.new
  let versions_to_delete := group_versions_by_package cutoff_result.old
  rescue versions_to_keep versions_to_delete

/-- Observable executor actions: a confirmation prompt, a remote DELETE
request, or a dry-run simulated deletion. -/
inductive Event where
  | prompt (v : Version)
  | deleteCall (v : Version)
  | simulate (v : Version)
deriving DecidableEq, Repr

/-- Executor state: number of prompts shown so far (index into the
`confirm` oracle), the event trace, and `deleted_versions`. -/
structure ExecState where
  promptCount : Nat
  events : List Event
  deleted : List Version
deriving DecidableEq, Repr

/-- Processing of one candidate version in `_delete_old_versions`
(`main.py` lines 270–305).  `yes` short-circuits the prompt; a confirmed
candidate is simulated under `dryrun`, otherwise DELETEd; a non-2xx
response (`httpOk v = false`) raises, embedded as `Except.error`
propagation; the version is appended to `deleted_versions` only after a
successful (or simulated) deletion. -/
def execVersion (dryrun yes : Bool) (confirm : Nat → Bool)
    (httpOk : Version → Bool) (s : ExecState) (v : Version) :
    Except ExecState ExecState :=
  let ps :=
    if yes then s
    else { s with promptCount := s.promptCount + 1,
                  events := s.events ++ [Event.prompt v] }
  if yes || confirm s.promptCount then
    if dryrun then
      Except.ok { ps with events := ps.events ++ [Event.simulate v],
                          deleted := ps.deleted ++ [v] }
    else if httpOk v then
      Except.ok { ps with events := ps.events ++ [Event.deleteCall v],
                          deleted := ps.deleted ++ [v] }
    else
      Except.error { ps with events := ps.events ++ [Event.deleteCall v] }
  else
    Except.ok ps

/-- The inner `for version in versions` loop of `_delete_old_versions`. -/
def execList (dryrun yes : Bool) (confirm : Nat → Bool)
    (httpOk : Version → Bool) : ExecState → List Version →
    Except ExecState ExecState
  | s, [] => Except.ok s
  | s, v :: vs =>
    match execVersion dryrun yes confirm httpOk s v with
    | Except.error e => Except.error e
    | Except.ok s' => execList dryrun yes confirm httpOk s' vs

/-- The outer `for package, versions in versions_to_delete.items()` loop
of `_delete_old_versions` (`main.py` lines 268–306). -/
def execAll (dryrun yes : Bool) (confirm : Nat → Bool)
    (httpOk : Version → Bool) : ExecState → List (String × List Version) →
    Except ExecState ExecState
  | s, [] => Except.ok s
  | s, (_, vs) :: rest =>
    match execList dryrun yes confirm httpOk s vs with
    | Except.error e => Except.error e
    | Except.ok s' => execAll dryrun yes confirm httpOk s' rest

/-- Observable outcome of one `_delete_old_versions` run. -/
structure RunResult where
  signaledNothing : Bool
  aborted : Bool
  events : List Event
  deleted : List Version
  cacheCleared : Bool
deriving DecidableEq, Repr

/-- `_delete_old_versions` (`main.py` lines 228–314): selection phase,
the `if not versions_to_delete` early return, the executor loops, and the
final `if not dryrun: ctx.invoke(clear_cache)`.  The `limit` parameter is
accepted and never read, exactly as in the source (the function body of
`_delete_old_versions` contains no use of `limit`).  An exception from a
failed DELETE propagates out before the cache-clearing line. -/
def deleteOldVersionsRun (dryrun : Bool) (cutoff_result : DateCutoffResult)
    (limit : Option Int) (yes : Bool) (confirm : Nat → Bool)
    (httpOk : Version → Bool) : RunResult :=
  let _ := limit
  let sel := selectDeletions cutoff_result
  let versions_to_delete := sel.2
  if versions_to_delete.isEmpty then
    { signaledNothing := true, aborted := false, events := [],
      deleted := [], cacheCleared := false }
  else
    match execAll dryrun yes confirm httpOk
        { promptCount := 0, events := [], deleted := [] }
        versions_to_delete with
    | Except.error s =>
      { signaledNothing := false, aborted := true, events := s.events,
        deleted := s.deleted, cacheCleared := false }
    | Except.ok s =>
      { signaledNothing := false, aborted := false, events := s.events,
        deleted := s.deleted, cacheCleared := !dryrun }

/-- Flatten a grouped delete mapping in grouping order, per-group order
preserved: the order in which the executor's nested loops visit
candidates. -/
def flattenTD : List (String × List Version) → List Version
  | [] => []
  | (_, vs) :: rest => vs ++ flattenTD rest

/-- The candidates the confirmation state machine confirms, starting at
prompt index `n`: all of them under `--yes`, else those whose prompt is
answered positively by the oracle. -/
def confirmedFrom (yes : Bool) (confirm : Nat → Bool) :
    Nat → List Version → List Version
  | _, [] => []
  | n, v :: vs =>
    if yes then v :: confirmedFrom yes confirm n vs
    else if confirm n then v :: confirmedFrom yes confirm (n + 1) vs
    else confirmedFrom yes confirm (n + 1) vs

/-- The versions a trace prompts for, in order. -/
def promptsOf (events : List Event) : List Version :=
  events.filterMap (fun e =>
    match e with
    | Event.prompt v => some v
    | _ => none)

/-- Reference characterisation of the executor over the flattened
candidate list: returns (aborted?, events, deleted, next prompt index). -/
structure FlatRun where
  aborted : Bool
  events : List Event
  deleted : List Version
  nextPrompt : Nat
deriving DecidableEq, Repr

/-- One-pass characterisation of the nested executor loops on the
flattened candidate list. -/
def runFrom (dryrun yes : Bool) (confirm : Nat → Bool)
    (httpOk : Version → Bool) : Nat → List Version → FlatRun
  | n, [] => { aborted := false, events := [], deleted := [], nextPrompt := n }
  | n, v :: vs =>
    let pe : List Event := if yes then [] else [Event.prompt v]
    let n' := if yes then n else n + 1
    if yes || confirm n then
      if dryrun then
        let r := runFrom dryrun yes confirm httpOk n' vs
        { aborted := r.aborted, events := pe ++ [Event.simulate v] ++ r.events,
          deleted := v :: r.deleted, nextPrompt := r.nextPrompt }
      else if httpOk v then
        let r := runFrom dryrun yes confirm httpOk n' vs
        { aborted := r.aborted, events := pe ++ [Event.deleteCall v] ++ r.events,
          deleted := v :: r.deleted, nextPrompt := r.nextPrompt }
      else
        { aborted := true, events := pe ++ [Event.deleteCall v],
          deleted := [], nextPrompt := n' }
    else
      let r := runFrom dryrun yes confirm httpOk n' vs
      { aborted := r.aborted, events := pe ++ r.events,
        deleted := r.deleted, nextPrompt := r.nextPrompt }

/-! ### Lemmas about the age partitioner -/

theorem createdLe_trans (a b c : Version) :
    (decide (a.created ≤ b.created)) = true →
    (decide (b.created ≤ c.created)) = true →
    (decide (a.created ≤ c.created)) = true := by
  simp only [decide_eq_true_eq]
  exact le_trans

theorem createdLe_total (a b : Version) :
    (decide (a.created ≤ b.created) || decide (b.created ≤ a.created)) = true := by
  simp only [Bool.or_eq_true, decide_eq_true_eq]
  exact le_total _ _

theorem sortByCreated_perm (l : List Version) : (sortByCreated l).Perm l :=
  List.mergeSort_perm l _

theorem sortByCreated_sorted (l : List Version) :
    (sortByCreated l).Pairwise (fun a b => a.created ≤ b.created) := by
  have h := List.sorted_mergeSort createdLe_trans createdLe_total l
  exact h.imp (fun hab => of_decide_eq_true hab)

theorem sortByCreated_stable (l : List Version) (t : Int) :
    (sortByCreated l).filter (fun v => v.created = t)
      = l.filter (fun v => v.created = t) := by
  set p : Version → Bool := fun v => v.created = t with hp
  have hmem : ∀ v ∈ l.filter p, v.created = t := by
    intro v hv
    have := List.of_mem_filter hv
    simpa [hp] using this
  have hpw : (l.filter p).Pairwise
      (fun a b => (decide (a.created ≤ b.created)) = true) := by
    apply List.pairwise_of_forall_mem_list
    intro a ha b hb
    simp [hmem a ha, hmem b hb]
  have hsub : (l.filter p).Sublist (sortByCreated l) :=
    List.sublist_mergeSort createdLe_trans createdLe_total hpw
      (List.filter_sublist l)
  have hself : (l.filter p).filter p = l.filter p := by
    rw [List.filter_eq_self]
    intro a ha
    simp [hp, hmem a ha]
  have hsub2 : (l.filter p).Sublist ((sortByCreated l).filter p) := by
    have := List.Sublist.filter p hsub
    rwa [hself] at this
  have hlen : ((sortByCreated l).filter p).length = (l.filter p).length :=
    (List.Perm.filter p (sortByCreated_perm l)).length_eq
  exact (List.Sublist.eq_of_length hsub2 hlen.symm).symm

theorem filter_new_eq_not_old (versions : List Version) (c : Int) :
    versions.filter (fun v => c ≤ v.created)
      = versions.filter (fun v => !(decide (v.created < c))) := by
  apply List.filter_congr
  intro x _
  simp [← decide_not, not_lt]

/-! ### Lemmas about grouping -/

theorem findGroup_append {α : Type} (l1 l2 : List (String × α)) (p : String) :
    findGroup (l1 ++ l2) p = ((findGroup l1 p).or (findGroup l2 p)) := by
  induction l1 with
  | nil => simp [findGroup]
  | cons e rest ih =>
    obtain ⟨k, v⟩ := e
    by_cases h : k = p <;> simp [findGroup, h, ih]

theorem findGroup_eq_none_iff {α : Type} (l : List (String × α)) (p : String) :
    findGroup l p = none ↔ p ∉ l.map Prod.fst := by
  induction l with
  | nil => simp [findGroup]
  | cons e rest ih =>
    obtain ⟨k, v⟩ := e
    by_cases h : k = p
    · subst h
      simp [findGroup]
    · have h' : ¬ p = k := fun hh => h hh.symm
      simp [findGroup, h, ih, h']

theorem findGroup_addToGroup (acc : List (String × List Version))
    (v : Version) (p : String) :
    findGroup (addToGroup acc v) p =
      if v.package = p then
        match findGroup acc p with
        | some vs => some (vs ++ [v])
        | none => some [v]
      else findGroup acc p := by
  induction acc with
  | nil =>
    by_cases h : v.package = p <;> simp [addToGroup, findGroup, h]
  | cons e rest ih =>
    obtain ⟨k, vs⟩ := e
    by_cases hk : k = v.package
    · subst hk
      by_cases hp : v.package = p <;> simp [addToGroup, findGroup, hp]
    · by_cases hp : k = p
      · subst hp
        have hvp : ¬ v.package = k := fun h => hk h.symm
        simp [addToGroup, findGroup, hk, hvp]
      · simp [addToGroup, findGroup, hk, hp, ih]

theorem findGroup_foldl_some (l : List Version)
    (acc : List (String × List Version)) (p : String)
    (vs : List Version) (h : findGroup acc p = some vs) :
    findGroup (l.foldl addToGroup acc) p
      = some (vs ++ l.filter (fun v => v.package = p)) := by
  induction l generalizing acc vs with
  | nil => simpa [List.foldl] using h
  | cons v rest ih =>
    rw [List.foldl_cons]
    by_cases hv : v.package = p
    · have h' : findGroup (addToGroup acc v) p = some (vs ++ [v]) := by
        rw [findGroup_addToGroup, if_pos hv, h]
      rw [ih _ _ h']
      simp [hv]
    · have h' : findGroup (addToGroup acc v) p = some vs := by
        rw [findGroup_addToGroup, if_neg hv]
        exact h
      rw [ih _ _ h']
      simp [hv]

theorem findGroup_foldl_none (l : List Version)
    (acc : List (String × List Version)) (p : String)
    (h : findGroup acc p = none) :
    findGroup (l.foldl addToGroup acc) p
      = if (l.filter (fun v => v.package = p)).isEmpty then none
        else some (l.filter (fun v => v.package = p)) := by
  induction l generalizing acc with
  | nil => simpa [List.foldl] using h
  | cons v rest ih =>
    rw [List.foldl_cons]
    by_cases hv : v.package = p
    · have h' : findGroup (addToGroup acc v) p = some [v] := by
        rw [findGroup_addToGroup, if_pos hv, h]
      rw [findGroup_foldl_some rest _ _ _ h']
      simp [hv]
    · have h' : findGroup (addToGroup acc v) p = none := by
        rw [findGroup_addToGroup, if_neg hv]
        exact h
      rw [ih _ h']
      simp [hv]

/-- The grouping of `group_versions_by_package` at a key `p` is exactly
the sublist of the input with package `p` (present iff nonempty). -/
theorem findGroup_group (l : List Version) (p : String) :
    findGroup (group_versions_by_package l) p
      = if (l.filter (fun v => v.package = p)).isEmpty then none
        else some (l.filter (fun v => v.package = p)) := by
  unfold group_versions_by_package
  exact findGroup_foldl_none l [] p rfl

theorem findGroup_group_some (l : List Version) (p : String)
    (vs : List Version)
    (h : findGroup (group_versions_by_package l) p = some vs) :
    vs = l.filter (fun v => v.package = p) ∧ vs ≠ [] := by
  rw [findGroup_group] at h
  by_cases he : (l.filter (fun v => v.package = p)).isEmpty
  · rw [if_pos he] at h
    exact absurd h (by simp)
  · rw [if_neg he] at h
    refine ⟨by injection h with h; exact h.symm, ?_⟩
    intro hnil
    apply he
    injection h with h
    rw [h, hnil]
    rfl

theorem addToGroup_keys (acc : List (String × List Version)) (v : Version) :
    (addToGroup acc v).map Prod.fst
      = if (findGroup acc v.package).isSome then acc.map Prod.fst
        else acc.map Prod.fst ++ [v.package] := by
  induction acc with
  | nil => simp [addToGroup, findGroup]
  | cons e rest ih =>
    obtain ⟨k, vs⟩ := e
    by_cases hk : k = v.package
    · subst hk
      simp [addToGroup, findGroup]
    · have hk' : ¬ v.package = k := fun hh => hk hh.symm
      by_cases hf : (findGroup rest v.package).isSome
      · simp [addToGroup, findGroup, hk, hk', hf, ih]
      · simp [addToGroup, findGroup, hk, hk', hf, ih]

theorem foldl_addToGroup_keys_nodup (l : List Version)
    (acc : List (String × List Version))
    (h : (acc.map Prod.fst).Nodup) :
    ((l.foldl addToGroup acc).map Prod.fst).Nodup := by
  induction l generalizing acc with
  | nil => simpa using h
  | cons v rest ih =>
    rw [List.foldl_cons]
    apply ih
    rw [addToGroup_keys]
    by_cases hf : (findGroup acc v.package).isSome
    · simpa [hf] using h
    · rw [if_neg hf]
      have hnotin : v.package ∉ acc.map Prod.fst := by
        rw [← findGroup_eq_none_iff]
        exact Option.not_isSome_iff_eq_none.mp hf
      simp [List.nodup_append, h, hnotin]

/-- The package keys produced by grouping are distinct. -/
theorem group_keys_nodup (l : List Version) :
    ((group_versions_by_package l).map Prod.fst).Nodup :=
  foldl_addToGroup_keys_nodup l [] (by simp)

/-! ### Lemmas about the rescue loop -/

theorem rescue_toKeep_extends (td tk : List (String × List Version)) :
    ∃ ext, (rescue tk td).1 = tk ++ ext := by
  induction td generalizing tk with
  | nil => exact ⟨[], by simp [rescue]⟩
  | cons e rest ih =>
    obtain ⟨p, vs⟩ := e
    by_cases h : (findGroup tk p).isSome
    · obtain ⟨ext, hext⟩ := ih tk
      exact ⟨ext, by simp [rescue, h, hext]⟩
    · cases hl : vs.getLast? with
      | some preserve =>
        obtain ⟨ext, hext⟩ := ih (tk ++ [(p, [preserve])])
        refine ⟨[(p, [preserve])] ++ ext, ?_⟩
        simp only [rescue, Bool.if_false_left]
        rw [if_neg h, hl]
        simpa using hext
      | none =>
        obtain ⟨ext, hext⟩ := ih tk
        refine ⟨ext, ?_⟩
        simp only [rescue]
        rw [if_neg h, hl]
        exact hext

theorem rescue_toDelete_keys (td tk : List (String × List Version)) :
    ((rescue tk td).2).map Prod.fst = td.map Prod.fst := by
  induction td generalizing tk with
  | nil => simp [rescue]
  | cons e rest ih =>
    obtain ⟨p, vs⟩ := e
    by_cases h : (findGroup tk p).isSome
    · simp [rescue, h, ih]
    · cases hl : vs.getLast? with
      | some preserve =>
        simp only [rescue]
        rw [if_neg h, hl]
        simp [ih]
      | none =>
        simp only [rescue]
        rw [if_neg h, hl]
        simp [ih]

theorem rescue_toKeep_not_mem (td tk : List (String × List Version))
    (p : String) (hp : p ∉ td.map Prod.fst) :
    findGroup (rescue tk td).1 p = findGroup tk p := by
  induction td generalizing tk with
  | nil => simp [rescue]
  | cons e rest ih =>
    obtain ⟨q, ws⟩ := e
    have hq : ¬ q = p := by
      intro h
      exact hp (by simp [h])
    have hrest : p ∉ rest.map Prod.fst := by
      intro h
      exact hp (by simp [h])
    by_cases h : (findGroup tk q).isSome
    · simp [rescue, h, ih _ hrest]
    · cases hl : ws.getLast? with
      | some preserve =>
        simp only [rescue]
        rw [if_neg h, hl]
        simp only []
        rw [ih _ hrest, findGroup_append]
        simp [findGroup, hq]
      | none =>
        simp only [rescue]
        rw [if_neg h, hl]
        simp [ih _ hrest]

theorem rescue_kept (td : List (String × List Version))
    (tk : List (String × List Version)) (p : String)
    (vs ks : List Version) (hnd : (td.map Prod.fst).Nodup)
    (hdel : findGroup td p = some vs) (hkeep : findGroup tk p = some ks) :
    findGroup (rescue tk td).1 p = some ks ∧
    findGroup (rescue tk td).2 p = some vs := by
  induction td generalizing tk with
  | nil => simp [findGroup] at hdel
  | cons e rest ih =>
    obtain ⟨q, ws⟩ := e
    simp only [List.map_cons, List.nodup_cons] at hnd
    by_cases hq : q = p
    · subst hq
      rw [findGroup, if_pos rfl] at hdel
      injection hdel with hdel
      subst hdel
      have hs : (findGroup tk q).isSome := by
        rw [hkeep]
        rfl
      constructor
      · simp only [rescue, hs, if_true]
        rw [rescue_toKeep_not_mem _ _ _ hnd.1]
        exact hkeep
      · simp [rescue, hs, findGroup]
    · have hdel' : findGroup rest p = some vs := by
        rw [findGroup, if_neg hq] at hdel
        exact hdel
      by_cases h : (findGroup tk q).isSome
      · have := ih tk hnd.2 hdel' hkeep
        simp [rescue, h, findGroup, hq, this.1, this.2]
      · cases hl : ws.getLast? with
        | some preserve =>
          have hkeep' : findGroup (tk ++ [(q, [preserve])]) p = some ks := by
            rw [findGroup_append, hkeep]
            rfl
          have := ih (tk ++ [(q, [preserve])]) hnd.2 hdel' hkeep'
          constructor
          · simp only [rescue]
            rw [if_neg h, hl]
            exact this.1
          · simp only [rescue]
            rw [if_neg h, hl]
            simp [findGroup, hq, this.2]
        | none =>
          have := ih tk hnd.2 hdel' hkeep
          constructor
          · simp only [rescue]
            rw [if_neg h, hl]
            exact this.1
          · simp only [rescue]
            rw [if_neg h, hl]
            simp [findGroup, hq, this.2]

theorem rescue_rescued (td : List (String × List Version))
    (tk : List (String × List Version)) (p : String)
    (vs : List Version) (preserve : Version)
    (hnd : (td.map Prod.fst).Nodup)
    (hdel : findGroup td p = some vs) (hkeep : findGroup tk p = none)
    (hlast : vs.getLast? = some preserve) :
    findGroup (rescue tk td).1 p = some [preserve] ∧
    findGroup (rescue tk td).2 p = some vs.dropLast := by
  induction td generalizing tk with
  | nil => simp [findGroup] at hdel
  | cons e rest ih =>
    obtain ⟨q, ws⟩ := e
    simp only [List.map_cons, List.nodup_cons] at hnd
    by_cases hq : q = p
    · subst hq
      rw [findGroup, if_pos rfl] at hdel
      injection hdel with hdel
      subst hdel
      have hs : ¬ (findGroup tk q).isSome := by
        rw [hkeep]
        simp
      constructor
      · simp only [rescue]
        rw [if_neg hs, hlast]
        simp only []
        rw [rescue_toKeep_not_mem _ _ _ hnd.1, findGroup_append, hkeep]
        simp [findGroup]
      · simp only [rescue]
        rw [if_neg hs, hlast]
        simp [findGroup]
    · have hdel' : findGroup rest p = some vs := by
        rw [findGroup, if_neg hq] at hdel
        exact hdel
      by_cases h : (findGroup tk q).isSome
      · have := ih tk hnd.2 hdel' hkeep
        simp [rescue, h, findGroup, hq, this.1, this.2]
      · cases hl : ws.getLast? with
        | some pr =>
          have hkeep' : findGroup (tk ++ [(q, [pr])]) p = none := by
            rw [findGroup_append, hkeep]
            simp [findGroup, hq]
          have := ih (tk ++ [(q, [pr])]) hnd.2 hdel' hkeep'
          constructor
          · simp only [rescue]
            rw [if_neg h, hl]
            exact this.1
          · simp only [rescue]
            rw [if_neg h, hl]
            simp [findGroup, hq, this.2]
        | none =>
          have := ih tk hnd.2 hdel' hkeep
          constructor
          · simp only [rescue]
            rw [if_neg h, hl]
            exact this.1
          · simp only [rescue]
            rw [if_neg h, hl]
            simp [findGroup, hq, this.2]

/-! ### Claim C3: the age partitioner -/

/-- Claim C3: `apply_date_cutoff` returns the cutoff `now - olderThanDays`
days; its `old` list is exactly the input versions created strictly before
the cutoff and its `new` list exactly those created on/after it (as
multisets); every `old` element is strictly before and every `new` element
on/after the cutoff; both lists are sorted ascending by `created` with
ties kept in original input order (the sublist at any fixed `created`
value equals the corresponding sublist of the input); and `old ++ new` is
a permutation of the input, with no duplicates or omissions.  Holds for
every `older_than_days`, including zero and negative values. -/
theorem apply_date_cutoff_spec (now : Int) (versions : List Version)
    (older_than_days : Int) :
    (apply_date_cutoff now versions older_than_days).cutoff
      = now - older_than_days * secondsPerDay ∧
    (apply_date_cutoff now versions older_than_days).old.Perm
      (versions.filter
        (fun v => v.created < now - older_than_days * secondsPerDay)) ∧
    (apply_date_cutoff now versions older_than_days).new.Perm
      (versions.filter
        (fun v => now - older_than_days * secondsPerDay ≤ v.created)) ∧
    (∀ v ∈ (apply_date_cutoff now versions older_than_days).old,
      v.created < now - older_than_days * secondsPerDay) ∧
    (∀ v ∈ (apply_date_cutoff now versions older_than_days).new,
      now - older_than_days * secondsPerDay ≤ v.created) ∧
    (apply_date_cutoff now versions older_than_days).old.Pairwise
      (fun a b => a.created ≤ b.created) ∧
    (apply_date_cutoff now versions older_than_days).new.Pairwise
      (fun a b => a.created ≤ b.created) ∧
    (∀ t : Int,
      (apply_date_cutoff now versions older_than_days).old.filter
          (fun v => v.created = t)
        = (versions.filter
            (fun v => v.created < now - older_than_days * secondsPerDay)).filter
            (fun v => v.created = t)) ∧
    (∀ t : Int,
      (apply_date_cutoff now versions older_than_days).new.filter
          (fun v => v.created = t)
        = (versions.filter
            (fun v => now - older_than_days * secondsPerDay ≤ v.created)).filter
            (fun v => v.created = t)) ∧
    ((apply_date_cutoff now versions older_than_days).old
      ++ (apply_date_cutoff now versions older_than_days).new).Perm versions := by
  have hold : (apply_date_cutoff now versions older_than_days).old
      = sortByCreated (versions.filter
          (fun v => v.created < now - older_than_days * secondsPerDay)) := rfl
  have hnew : (apply_date_cutoff now versions older_than_days).new
      = sortByCreated (versions.filter
          (fun v => now - older_than_days * secondsPerDay ≤ v.created)) := rfl
  refine ⟨rfl, ?_, ?_, ?_, ?_, ?_, ?_, ?_, ?_, ?_⟩
  · rw [hold]
    exact sortByCreated_perm _
  · rw [hnew]
    exact sortByCreated_perm _
  · intro v hv
    rw [hold] at hv
    have hv' := (sortByCreated_perm _).mem_iff.mp hv
    exact of_decide_eq_true (List.mem_filter.mp hv').2
  · intro v hv
    rw [hnew] at hv
    have hv' := (sortByCreated_perm _).mem_iff.mp hv
    exact of_decide_eq_true (List.mem_filter.mp hv').2
  · rw [hold]
    exact sortByCreated_sorted _
  · rw [hnew]
    exact sortByCreated_sorted _
  · intro t
    rw [hold]
    exact sortByCreated_stable _ t
  · intro t
    rw [hnew]
    exact sortByCreated_stable _ t
  · rw [hold, hnew]
    refine ((sortByCreated_perm _).append (sortByCreated_perm _)).trans ?_
    rw [filter_new_eq_not_old]
    exact List.filter_append_perm _ versions

/-! ### Claims C1 and C7: the selection phase -/

theorem mem_created_le_getLast (l : List Version)
    (hpw : l.Pairwise (fun a b => a.created ≤ b.created))
    (hne : l ≠ []) :
    ∀ v ∈ l, v.created ≤ (l.getLast hne).created := by
  intro v hv
  have hdec := List.dropLast_append_getLast hne
  rw [← hdec] at hpw hv
  rcases List.mem_append.mp hv with h1 | h2
  · exact (List.pairwise_append.mp hpw).2.2 v h1 _ (by simp)
  · simp only [List.mem_singleton] at h2
    rw [h2]

/-- Claim C1: after the selection phase (grouping old/new by package and
the rescue step), every package that has at least one version among the
input versions of the `DateCutoffResult` has a nonempty entry in the
`toKeep` mapping — no package loses all of its versions. -/
theorem selectDeletions_keeps_every_package (c : DateCutoffResult)
    (p : String) (h : ∃ v, v ∈ c.old ++ c.new ∧ v.package = p) :
    ∃ vs, findGroup (selectDeletions c).1 p = some vs ∧ vs ≠ [] := by
  have hnd : ((group_versions_by_package c.old).map Prod.fst).Nodup :=
    group_keys_nodup c.old
  by_cases hk : (findGroup (group_versions_by_package c.new) p).isSome
  · obtain ⟨ks, hks⟩ := Option.isSome_iff_exists.mp hk
    have hksne : ks ≠ [] := (findGroup_group_some c.new p ks hks).2
    by_cases hd : findGroup (group_versions_by_package c.old) p = none
    · have hnm : p ∉ (group_versions_by_package c.old).map Prod.fst :=
        (findGroup_eq_none_iff _ _).mp hd
      refine ⟨ks, ?_, hksne⟩
      show findGroup (rescue (group_versions_by_package c.new)
        (group_versions_by_package c.old)).1 p = some ks
      rw [rescue_toKeep_not_mem _ _ _ hnm]
      exact hks
    · obtain ⟨vs, hvs⟩ := Option.ne_none_iff_exists'.mp hd
      exact ⟨ks, (rescue_kept _ _ _ _ _ hnd hvs hks).1, hksne⟩
  · have hk' : findGroup (group_versions_by_package c.new) p = none :=
      Option.not_isSome_iff_eq_none.mp hk
    obtain ⟨v, hv, hvp⟩ := h
    have hvold : v ∈ c.old := by
      rcases List.mem_append.mp hv with h1 | h2
      · exact h1
      · exfalso
        have hmem : v ∈ c.new.filter (fun w => w.package = p) :=
          List.mem_filter.mpr ⟨h2, by simp [hvp]⟩
        have hne : ¬ (c.new.filter (fun w => w.package = p)).isEmpty := by
          intro he
          rw [List.isEmpty_iff] at he
          rw [he] at hmem
          exact List.not_mem_nil v hmem
        have hsome : findGroup (group_versions_by_package c.new) p ≠ none := by
          rw [findGroup_group, if_neg hne]
          simp
        exact hsome hk'
    have hmem : v ∈ c.old.filter (fun w => w.package = p) :=
      List.mem_filter.mpr ⟨hvold, by simp [hvp]⟩
    have hne : ¬ (c.old.filter (fun w => w.package = p)).isEmpty := by
      intro he
      rw [List.isEmpty_iff] at he
      rw [he] at hmem
      exact List.not_mem_nil v hmem
    have hd : findGroup (group_versions_by_package c.old) p
        = some (c.old.filter (fun w => w.package = p)) := by
      rw [findGroup_group, if_neg hne]
    have hfilne : c.old.filter (fun w => w.package = p) ≠ [] := by
      intro hnil
      apply hne
      rw [hnil]
      rfl
    obtain ⟨preserve, hpr⟩ :=
      Option.isSome_iff_exists.mp (List.getLast?_isSome.mpr hfilne)
    exact ⟨[preserve], (rescue_rescued _ _ _ _ _ hnd hd hk' hpr).1, by simp⟩

/-- Sample version records for concrete witness runs. -/
def wDemoV1 : Version :=
  { owner := "oz", repo := "zipkin", package := "demo", name := "v1",
    created := 100, updated := 100 }

def wDemoV2 : Version :=
  { owner := "oz", repo := "zipkin", package := "demo", name := "v2",
    created := 200, updated := 200 }

/-- Witness for claim C1 at a concrete input: a package whose only
version is old still keeps one version. -/
theorem selectDeletions_keeps_every_package_witness :
    ∃ vs, findGroup (selectDeletions
      { cutoff := 300, old := [wDemoV1], new := [] }).1 "demo"
        = some vs ∧ vs ≠ [] :=
  selectDeletions_keeps_every_package
    { cutoff := 300, old := [wDemoV1], new := [] } "demo"
    ⟨wDemoV1, by simp, rfl⟩

/-- Claim C7: a package present in the old grouping but absent from the
new grouping has the last element of its (ascending-sorted) old group
removed from the delete candidates and installed as its sole `toKeep`
entry; the remaining older candidates stay in the delete list; and when
`old` is ascending-sorted by `created`, that popped element is a
most-recently-created element of the group. -/
theorem selectDeletions_rescues_most_recent (c : DateCutoffResult)
    (p : String) (vs : List Version)
    (hdel : findGroup (group_versions_by_package c.old) p = some vs)
    (hkeep : findGroup (group_versions_by_package c.new) p = none) :
    ∃ preserve, vs.getLast? = some preserve ∧
      findGroup (selectDeletions c).1 p = some [preserve] ∧
      findGroup (selectDeletions c).2 p = some vs.dropLast ∧
      (c.old.Pairwise (fun a b => a.created ≤ b.created) →
        ∀ v ∈ vs, v.created ≤ preserve.created) := by
  have hnd : ((group_versions_by_package c.old).map Prod.fst).Nodup :=
    group_keys_nodup c.old
  obtain ⟨hvs, hvsne⟩ := findGroup_group_some c.old p vs hdel
  refine ⟨vs.getLast hvsne, List.getLast?_eq_getLast vs hvsne, ?_, ?_, ?_⟩
  · exact (rescue_rescued _ _ _ _ _ hnd hdel hkeep
      (List.getLast?_eq_getLast vs hvsne)).1
  · exact (rescue_rescued _ _ _ _ _ hnd hdel hkeep
      (List.getLast?_eq_getLast vs hvsne)).2
  · intro hsort v hv
    have hpw : vs.Pairwise (fun a b => a.created ≤ b.created) := by
      rw [hvs]
      exact List.Pairwise.sublist (List.filter_sublist c.old) hsort
    exact mem_created_le_getLast vs hpw hvsne v hv

/-- Witness for claim C7 at the spec's Scenario B: `demo` has `v1`, `v2`
both old; the rescue pops `v2` and keeps `[v1]` for deletion. -/
theorem selectDeletions_rescues_most_recent_witness :
    ∃ preserve, [wDemoV1, wDemoV2].getLast? = some preserve ∧
      findGroup (selectDeletions
        { cutoff := 300, old := [wDemoV1, wDemoV2], new := [] }).1 "demo"
          = some [preserve] ∧
      findGroup (selectDeletions
        { cutoff := 300, old := [wDemoV1, wDemoV2], new := [] }).2 "demo"
          = some [wDemoV1, wDemoV2].dropLast ∧
      ([wDemoV1, wDemoV2].Pairwise (fun a b => a.created ≤ b.created) →
        ∀ v ∈ [wDemoV1, wDemoV2], v.created ≤ preserve.created) :=
  selectDeletions_rescues_most_recent
    { cutoff := 300, old := [wDemoV1, wDemoV2], new := [] } "demo"
    [wDemoV1, wDemoV2] (by decide) (by decide)

/-! ### Executor characterisation -/

theorem execList_eq_runFrom (dryrun yes : Bool) (confirm : Nat → Bool)
    (httpOk : Version → Bool) (vs : List Version) (s : ExecState) :
    execList dryrun yes confirm httpOk s vs =
      if (runFrom dryrun yes confirm httpOk s.promptCount vs).aborted then
        Except.error
          { promptCount :=
              (runFrom dryrun yes confirm httpOk s.promptCount vs).nextPrompt,
            events := s.events
              ++ (runFrom dryrun yes confirm httpOk s.promptCount vs).events,
            deleted := s.deleted
              ++ (runFrom dryrun yes confirm httpOk s.promptCount vs).deleted }
      else
        Except.ok
          { promptCount :=
              (runFrom dryrun yes confirm httpOk s.promptCount vs).nextPrompt,
            events := s.events
              ++ (runFrom dryrun yes confirm httpOk s.promptCount vs).events,
            deleted := s.deleted
              ++ (runFrom dryrun yes confirm httpOk s.promptCount vs).deleted } := by
  induction vs generalizing s with
  | nil => simp [execList, runFrom]
  | cons v rest ih =>
    cases hy : yes with
    | true =>
      subst hy
      cases hc : dryrun with
      | true =>
        subst hc
        simp [execList, execVersion, runFrom, ih, List.append_assoc]
      | false =>
        subst hc
        by_cases hh : httpOk v
        · simp [execList, execVersion, runFrom, hh, ih, List.append_assoc]
        · simp [execList, execVersion, runFrom, hh, List.append_assoc]
    | false =>
      subst hy
      by_cases hcf : confirm s.promptCount
      · cases hc : dryrun with
        | true =>
          subst hc
          simp [execList, execVersion, runFrom, hcf, ih, List.append_assoc]
        | false =>
          subst hc
          by_cases hh : httpOk v
          · simp [execList, execVersion, runFrom, hcf, hh, ih,
              List.append_assoc]
          · simp [execList, execVersion, runFrom, hcf, hh,
              List.append_assoc]
      · simp [execList, execVersion, runFrom, hcf, ih, List.append_assoc]

theorem runFrom_append (dryrun yes : Bool) (confirm : Nat → Bool)
    (httpOk : Version → Bool) (l1 l2 : List Version) (n : Nat) :
    runFrom dryrun yes confirm httpOk n (l1 ++ l2) =
      if (runFrom dryrun yes confirm httpOk n l1).aborted then
        runFrom dryrun yes confirm httpOk n l1
      else
        { aborted := (runFrom dryrun yes confirm httpOk
            (runFrom dryrun yes confirm httpOk n l1).nextPrompt l2).aborted,
          events := (runFrom dryrun yes confirm httpOk n l1).events
            ++ (runFrom dryrun yes confirm httpOk
                (runFrom dryrun yes confirm httpOk n l1).nextPrompt l2).events,
          deleted := (runFrom dryrun yes confirm httpOk n l1).deleted
            ++ (runFrom dryrun yes confirm httpOk
                (runFrom dryrun yes confirm httpOk n l1).nextPrompt l2).deleted,
          nextPrompt := (runFrom dryrun yes confirm httpOk
            (runFrom dryrun yes confirm httpOk n l1).nextPrompt l2).nextPrompt } := by
  induction l1 generalizing n with
  | nil => simp [runFrom]
  | cons v rest ih =>
    cases hy : yes with
    | true =>
      subst hy
      cases hd : dryrun with
      | true =>
        subst hd
        simp only [List.cons_append, List.append_eq, runFrom, Bool.true_or, if_true]
        rw [ih]
        by_cases ha : (runFrom true true confirm httpOk n rest).aborted
        · simp [ha, List.append_assoc]
        · simp [ha, List.append_assoc]
      | false =>
        subst hd
        by_cases hh : httpOk v
        · simp only [List.cons_append, List.append_eq, runFrom, Bool.true_or, if_true, hh,
            Bool.false_eq_true]
          rw [ih]
          by_cases ha : (runFrom false true confirm httpOk n rest).aborted
          · simp [ha, List.append_assoc]
          · simp [ha, List.append_assoc]
        · simp [runFrom, hh]
    | false =>
      subst hy
      by_cases hcf : confirm n
      · cases hd : dryrun with
        | true =>
          subst hd
          simp only [List.cons_append, List.append_eq, runFrom, hcf, Bool.false_or, if_true]
          rw [ih]
          by_cases ha : (runFrom true false confirm httpOk (n + 1) rest).aborted
          · simp [ha, List.append_assoc]
          · simp [ha, List.append_assoc]
        | false =>
          subst hd
          by_cases hh : httpOk v
          · simp only [List.cons_append, List.append_eq, runFrom, hcf, Bool.false_or, if_true,
              hh, Bool.false_eq_true]
            rw [ih]
            by_cases ha : (runFrom false false confirm httpOk (n + 1) rest).aborted
            · simp [ha, List.append_assoc]
            · simp [ha, List.append_assoc]
          · simp [runFrom, hcf, hh]
      · simp only [List.cons_append, List.append_eq, runFrom, hcf, Bool.false_or,
          Bool.false_eq_true, if_false]
        rw [ih]
        by_cases ha : (runFrom dryrun false confirm httpOk (n + 1) rest).aborted
        · simp [ha, List.append_assoc]
        · simp [ha, List.append_assoc]

theorem execAll_eq_runFrom (dryrun yes : Bool) (confirm : Nat → Bool)
    (httpOk : Version → Bool) (g : List (String × List Version))
    (s : ExecState) :
    execAll dryrun yes confirm httpOk s g =
      if (runFrom dryrun yes confirm httpOk s.promptCount
          (flattenTD g)).aborted then
        Except.error
          { promptCount := (runFrom dryrun yes confirm httpOk s.promptCount
              (flattenTD g)).nextPrompt,
            events := s.events ++ (runFrom dryrun yes confirm httpOk
              s.promptCount (flattenTD g)).events,
            deleted := s.deleted ++ (runFrom dryrun yes confirm httpOk
              s.promptCount (flattenTD g)).deleted }
      else
        Except.ok
          { promptCount := (runFrom dryrun yes confirm httpOk s.promptCount
              (flattenTD g)).nextPrompt,
            events := s.events ++ (runFrom dryrun yes confirm httpOk
              s.promptCount (flattenTD g)).events,
            deleted := s.deleted ++ (runFrom dryrun yes confirm httpOk
              s.promptCount (flattenTD g)).deleted } := by
  induction g generalizing s with
  | nil => simp [execAll, runFrom, flattenTD]
  | cons e rest ih =>
    obtain ⟨p, vs⟩ := e
    show execAll dryrun yes confirm httpOk s ((p, vs) :: rest) = _
    have hflat : flattenTD ((p, vs) :: rest) = vs ++ flattenTD rest := rfl
    rw [hflat, runFrom_append]
    simp only [execAll]
    rw [execList_eq_runFrom]
    by_cases ha : (runFrom dryrun yes confirm httpOk s.promptCount vs).aborted
    · simp [ha]
    · simp only [ha, if_false, Bool.false_eq_true]
      rw [ih]
      simp [List.append_assoc]

/-- `_delete_old_versions` in terms of the flattened-run
characterisation. -/
theorem deleteOldVersionsRun_eq (dryrun : Bool) (c : DateCutoffResult)
    (limit : Option Int) (yes : Bool) (confirm : Nat → Bool)
    (httpOk : Version → Bool) :
    deleteOldVersionsRun dryrun c limit yes confirm httpOk =
      if (selectDeletions c).2.isEmpty then
        { signaledNothing := true, aborted := false, events := [],
          deleted := [], cacheCleared := false }
      else if (runFrom dryrun yes confirm httpOk 0
          (flattenTD (selectDeletions c).2)).aborted then
        { signaledNothing := false, aborted := true,
          events := (runFrom dryrun yes confirm httpOk 0
            (flattenTD (selectDeletions c).2)).events,
          deleted := (runFrom dryrun yes confirm httpOk 0
            (flattenTD (selectDeletions c).2)).deleted,
          cacheCleared := false }
      else
        { signaledNothing := false, aborted := false,
          events := (runFrom dryrun yes confirm httpOk 0
            (flattenTD (selectDeletions c).2)).events,
          deleted := (runFrom dryrun yes confirm httpOk 0
            (flattenTD (selectDeletions c).2)).deleted,
          cacheCleared := !dryrun } := by
  unfold deleteOldVersionsRun
  by_cases he : (selectDeletions c).2.isEmpty
  · simp [he]
  · simp only [he, if_false]
    rw [execAll_eq_runFrom]
    by_cases ha : (runFrom dryrun yes confirm httpOk 0
        (flattenTD (selectDeletions c).2)).aborted
    · simp [ha]
    · simp [ha]

/-! ### Properties of the flattened run -/

theorem runFrom_not_aborted (dryrun yes : Bool) (confirm : Nat → Bool)
    (httpOk : Version → Bool)
    (hok : dryrun = true ∨ ∀ v, httpOk v = true) :
    ∀ (l : List Version) (n : Nat),
      (runFrom dryrun yes confirm httpOk n l).aborted = false := by
  cases hd : dryrun with
  | true =>
    subst hd
    intro l
    induction l with
    | nil => intro n; simp [runFrom]
    | cons v rest ih =>
      intro n
      cases hy : yes with
      | true =>
        subst hy
        simp [runFrom, ih]
      | false =>
        subst hy
        by_cases hcf : confirm n
        · simp [runFrom, hcf, ih]
        · simp [runFrom, hcf, ih]
  | false =>
    subst hd
    intro l
    have hh : ∀ v, httpOk v = true := hok.resolve_left (by simp)
    induction l with
    | nil => intro n; simp [runFrom]
    | cons v rest ih =>
      intro n
      cases hy : yes with
      | true =>
        subst hy
        simp [runFrom, hh v, ih]
      | false =>
        subst hy
        by_cases hcf : confirm n
        · simp [runFrom, hcf, hh v, ih]
        · simp [runFrom, hcf, ih]

theorem runFrom_deleted_eq (dryrun yes : Bool) (confirm : Nat → Bool)
    (httpOk : Version → Bool)
    (hok : dryrun = true ∨ ∀ v, httpOk v = true) :
    ∀ (l : List Version) (n : Nat),
      (runFrom dryrun yes confirm httpOk n l).deleted
        = confirmedFrom yes confirm n l := by
  cases hd : dryrun with
  | true =>
    subst hd
    intro l
    induction l with
    | nil => intro n; simp [runFrom, confirmedFrom]
    | cons v rest ih =>
      intro n
      cases hy : yes with
      | true =>
        subst hy
        simp [runFrom, confirmedFrom, ih]
      | false =>
        subst hy
        by_cases hcf : confirm n
        · simp [runFrom, confirmedFrom, hcf, ih]
        · simp [runFrom, confirmedFrom, hcf, ih]
  | false =>
    subst hd
    intro l
    have hh : ∀ v, httpOk v = true := hok.resolve_left (by simp)
    induction l with
    | nil => intro n; simp [runFrom, confirmedFrom]
    | cons v rest ih =>
      intro n
      cases hy : yes with
      | true =>
        subst hy
        simp [runFrom, confirmedFrom, hh v, ih]
      | false =>
        subst hy
        by_cases hcf : confirm n
        · simp [runFrom, confirmedFrom, hcf, hh v, ih]
        · simp [runFrom, confirmedFrom, hcf, ih]

theorem runFrom_prompts_eq (dryrun : Bool) (confirm : Nat → Bool)
    (httpOk : Version → Bool)
    (hok : dryrun = true ∨ ∀ v, httpOk v = true) :
    ∀ (l : List Version) (n : Nat),
      promptsOf (runFrom dryrun false confirm httpOk n l).events = l := by
  cases hd : dryrun with
  | true =>
    subst hd
    intro l
    induction l with
    | nil => intro n; simp [runFrom, promptsOf]
    | cons v rest ih =>
      intro n
      by_cases hcf : confirm n
      · simp [runFrom, hcf, promptsOf, List.filterMap_append] at ih ⊢
        exact ih n.succ
      · simp [runFrom, hcf, promptsOf, List.filterMap_append] at ih ⊢
        exact ih n.succ
  | false =>
    subst hd
    intro l
    have hh : ∀ v, httpOk v = true := hok.resolve_left (by simp)
    induction l with
    | nil => intro n; simp [runFrom, promptsOf]
    | cons v rest ih =>
      intro n
      by_cases hcf : confirm n
      · simp [runFrom, hcf, hh v, promptsOf, List.filterMap_append] at ih ⊢
        exact ih n.succ
      · simp [runFrom, hcf, promptsOf, List.filterMap_append] at ih ⊢
        exact ih n.succ

theorem runFrom_dryrun_no_deleteCall (yes : Bool) (confirm : Nat → Bool)
    (httpOk : Version → Bool) :
    ∀ (l : List Version) (n : Nat) (v : Version),
      Event.deleteCall v ∉ (runFrom true yes confirm httpOk n l).events := by
  intro l
  induction l with
  | nil => intro n v; simp [runFrom]
  | cons w rest ih =>
    intro n v
    cases hy : yes with
    | true =>
      subst hy
      simp [runFrom, ih]
    | false =>
      subst hy
      by_cases hcf : confirm n
      · simp [runFrom, hcf, ih]
      · simp [runFrom, hcf, ih]


theorem runFrom_failing_deleteCall_aborts (dryrun yes : Bool)
    (confirm : Nat → Bool) (httpOk : Version → Bool) :
    ∀ (l : List Version) (n : Nat) (v : Version),
      Event.deleteCall v ∈ (runFrom dryrun yes confirm httpOk n l).events →
      httpOk v = false →
      (runFrom dryrun yes confirm httpOk n l).aborted = true := by
  intro l
  induction l with
  | nil =>
    intro n v h
    simp [runFrom] at h
  | cons w rest ih =>
    intro n v hmem hfail
    cases hd : dryrun with
    | true =>
      subst hd
      exact absurd hmem (runFrom_dryrun_no_deleteCall yes confirm httpOk _ n v)
    | false =>
      subst hd
      cases hy : yes with
      | true =>
        subst hy
        by_cases hh : httpOk w
        · have hev : (runFrom false true confirm httpOk n (w :: rest)).events
              = Event.deleteCall w
                :: (runFrom false true confirm httpOk n rest).events := by
            simp [runFrom, hh]
          have hab : (runFrom false true confirm httpOk n (w :: rest)).aborted
              = (runFrom false true confirm httpOk n rest).aborted := by
            simp [runFrom, hh]
          rw [hev] at hmem
          rw [hab]
          rcases List.mem_cons.mp hmem with h1 | hmem
          · injection h1 with hvw
            rw [hvw, hh] at hfail
            exact absurd hfail (by simp)
          · exact ih _ v hmem hfail
        · simp [runFrom, hh]
      | false =>
        subst hy
        by_cases hcf : confirm n
        · by_cases hh : httpOk w
          · have hev : (runFrom false false confirm httpOk n (w :: rest)).events
                = Event.prompt w :: Event.deleteCall w
                  :: (runFrom false false confirm httpOk (n + 1) rest).events := by
              simp [runFrom, hcf, hh]
            have hab : (runFrom false false confirm httpOk n (w :: rest)).aborted
                = (runFrom false false confirm httpOk (n + 1) rest).aborted := by
              simp [runFrom, hcf, hh]
            rw [hev] at hmem
            rw [hab]
            rcases List.mem_cons.mp hmem with h1 | hmem
            · exact absurd h1 (by simp)
            · rcases List.mem_cons.mp hmem with h2 | hmem
              · injection h2 with hvw
                rw [hvw, hh] at hfail
                exact absurd hfail (by simp)
              · exact ih _ v hmem hfail
          · simp [runFrom, hcf, hh]
        · have hev : (runFrom false false confirm httpOk n (w :: rest)).events
              = Event.prompt w
                :: (runFrom false false confirm httpOk (n + 1) rest).events := by
            simp [runFrom, hcf]
          have hab : (runFrom false false confirm httpOk n (w :: rest)).aborted
              = (runFrom false false confirm httpOk (n + 1) rest).aborted := by
            simp [runFrom, hcf]
          rw [hev] at hmem
          rw [hab]
          rcases List.mem_cons.mp hmem with h1 | hmem
          · exact absurd h1 (by simp)
          · exact ih _ v hmem hfail

theorem runFrom_abort_shape (dryrun yes : Bool) (confirm : Nat → Bool)
    (httpOk : Version → Bool) :
    ∀ (l : List Version) (n : Nat),
      (runFrom dryrun yes confirm httpOk n l).aborted = true →
      ∃ es w, (runFrom dryrun yes confirm httpOk n l).events
          = es ++ [Event.deleteCall w] ∧ httpOk w = false ∧
        (∀ u, Event.deleteCall u ∈ es → httpOk u = true) := by
  intro l
  induction l with
  | nil =>
    intro n h
    simp [runFrom] at h
  | cons w rest ih =>
    intro n h
    cases hy : yes with
    | true =>
      subst hy
      cases hd : dryrun with
      | true =>
        subst hd
        have hev : (runFrom true true confirm httpOk n (w :: rest)).events
            = Event.simulate w
              :: (runFrom true true confirm httpOk n rest).events := by
          simp [runFrom]
        have hab : (runFrom true true confirm httpOk n (w :: rest)).aborted
            = (runFrom true true confirm httpOk n rest).aborted := by
          simp [runFrom]
        rw [hab] at h
        obtain ⟨es, u, hes, hu, hok⟩ := ih n h
        refine ⟨Event.simulate w :: es, u, ?_, hu, ?_⟩
        · rw [hev, hes]
          rfl
        · intro x hx
          rcases List.mem_cons.mp hx with h1 | h1
          · exact absurd h1 (by simp)
          · exact hok x h1
      | false =>
        subst hd
        by_cases hh : httpOk w
        · have hev : (runFrom false true confirm httpOk n (w :: rest)).events
              = Event.deleteCall w
                :: (runFrom false true confirm httpOk n rest).events := by
            simp [runFrom, hh]
          have hab : (runFrom false true confirm httpOk n (w :: rest)).aborted
              = (runFrom false true confirm httpOk n rest).aborted := by
            simp [runFrom, hh]
          rw [hab] at h
          obtain ⟨es, u, hes, hu, hok⟩ := ih n h
          refine ⟨Event.deleteCall w :: es, u, ?_, hu, ?_⟩
          · rw [hev, hes]
            rfl
          · intro x hx
            rcases List.mem_cons.mp hx with h1 | h1
            · injection h1 with h1
              rw [h1]
              exact hh
            · exact hok x h1
        · refine ⟨[], w, ?_, by simpa using hh, by simp⟩
          simp [runFrom, hh]
    | false =>
      subst hy
      by_cases hcf : confirm n
      · cases hd : dryrun with
        | true =>
          subst hd
          have hev : (runFrom true false confirm httpOk n (w :: rest)).events
              = Event.prompt w :: Event.simulate w
                :: (runFrom true false confirm httpOk (n + 1) rest).events := by
            simp [runFrom, hcf]
          have hab : (runFrom true false confirm httpOk n (w :: rest)).aborted
              = (runFrom true false confirm httpOk (n + 1) rest).aborted := by
            simp [runFrom, hcf]
          rw [hab] at h
          obtain ⟨es, u, hes, hu, hok⟩ := ih (n + 1) h
          refine ⟨Event.prompt w :: Event.simulate w :: es, u, ?_, hu, ?_⟩
          · rw [hev, hes]
            rfl
          · intro x hx
            rcases List.mem_cons.mp hx with h1 | h1
            · exact absurd h1 (by simp)
            · rcases List.mem_cons.mp h1 with h2 | h2
              · exact absurd h2 (by simp)
              · exact hok x h2
        | false =>
          subst hd
          by_cases hh : httpOk w
          · have hev : (runFrom false false confirm httpOk n (w :: rest)).events
                = Event.prompt w :: Event.deleteCall w
                  :: (runFrom false false confirm httpOk (n + 1) rest).events := by
              simp [runFrom, hcf, hh]
            have hab : (runFrom false false confirm httpOk n (w :: rest)).aborted
                = (runFrom false false confirm httpOk (n + 1) rest).aborted := by
              simp [runFrom, hcf, hh]
            rw [hab] at h
            obtain ⟨es, u, hes, hu, hok⟩ := ih (n + 1) h
            refine ⟨Event.prompt w :: Event.deleteCall w :: es, u, ?_, hu, ?_⟩
            · rw [hev, hes]
              rfl
            · intro x hx
              rcases List.mem_cons.mp hx with h1 | h1
              · exact absurd h1 (by simp)
              · rcases List.mem_cons.mp h1 with h2 | h2
                · injection h2 with h2
                  rw [h2]
                  exact hh
                · exact hok x h2
          · refine ⟨[Event.prompt w], w, ?_, by simpa using hh, by simp⟩
            simp [runFrom, hcf, hh]
      · have hev : (runFrom dryrun false confirm httpOk n (w :: rest)).events
            = Event.prompt w
              :: (runFrom dryrun false confirm httpOk (n + 1) rest).events := by
          simp [runFrom, hcf]
        have hab : (runFrom dryrun false confirm httpOk n (w :: rest)).aborted
            = (runFrom dryrun false confirm httpOk (n + 1) rest).aborted := by
          simp [runFrom, hcf]
        rw [hab] at h
        obtain ⟨es, u, hes, hu, hok⟩ := ih (n + 1) h
        refine ⟨Event.prompt w :: es, u, ?_, hu, ?_⟩
        · rw [hev, hes]
          rfl
        · intro x hx
          rcases List.mem_cons.mp hx with h1 | h1
          · exact absurd h1 (by simp)
          · exact hok x h1

theorem runFrom_deleted_have_deleteCall (yes : Bool) (confirm : Nat → Bool)
    (httpOk : Version → Bool) :
    ∀ (l : List Version) (n : Nat) (v : Version),
      v ∈ (runFrom false yes confirm httpOk n l).deleted →
      Event.deleteCall v ∈ (runFrom false yes confirm httpOk n l).events := by
  intro l
  induction l with
  | nil =>
    intro n v h
    simp [runFrom] at h
  | cons w rest ih =>
    intro n v hmem
    cases hy : yes with
    | true =>
      subst hy
      by_cases hh : httpOk w
      · have hev : (runFrom false true confirm httpOk n (w :: rest)).events
            = Event.deleteCall w
              :: (runFrom false true confirm httpOk n rest).events := by
          simp [runFrom, hh]
        have hdl : (runFrom false true confirm httpOk n (w :: rest)).deleted
            = w :: (runFrom false true confirm httpOk n rest).deleted := by
          simp [runFrom, hh]
        rw [hdl] at hmem
        rw [hev]
        rcases List.mem_cons.mp hmem with h1 | h1
        · rw [h1]
          exact List.mem_cons_self _ _
        · exact List.mem_cons_of_mem _ (ih n v h1)
      · have hdl : (runFrom false true confirm httpOk n (w :: rest)).deleted
            = [] := by
          simp [runFrom, hh]
        rw [hdl] at hmem
        exact absurd hmem (List.not_mem_nil v)
    | false =>
      subst hy
      by_cases hcf : confirm n
      · by_cases hh : httpOk w
        · have hev : (runFrom false false confirm httpOk n (w :: rest)).events
              = Event.prompt w :: Event.deleteCall w
                :: (runFrom false false confirm httpOk (n + 1) rest).events := by
            simp [runFrom, hcf, hh]
          have hdl : (runFrom false false confirm httpOk n (w :: rest)).deleted
              = w :: (runFrom false false confirm httpOk (n + 1) rest).deleted := by
            simp [runFrom, hcf, hh]
          rw [hdl] at hmem
          rw [hev]
          rcases List.mem_cons.mp hmem with h1 | h1
          · rw [h1]
            exact List.mem_cons_of_mem _ (List.mem_cons_self _ _)
          · exact List.mem_cons_of_mem _
              (List.mem_cons_of_mem _ (ih (n + 1) v h1))
        · have hdl : (runFrom false false confirm httpOk n (w :: rest)).deleted
              = [] := by
            simp [runFrom, hcf, hh]
          rw [hdl] at hmem
          exact absurd hmem (List.not_mem_nil v)
      · have hev : (runFrom false false confirm httpOk n (w :: rest)).events
            = Event.prompt w
              :: (runFrom false false confirm httpOk (n + 1) rest).events := by
          simp [runFrom, hcf]
        have hdl : (runFrom false false confirm httpOk n (w :: rest)).deleted
            = (runFrom false false confirm httpOk (n + 1) rest).deleted := by
          simp [runFrom, hcf]
        rw [hdl] at hmem
        rw [hev]
        exact List.mem_cons_of_mem _ (ih (n + 1) v hmem)

theorem runFrom_deleteCall_in_deleted (yes : Bool) (confirm : Nat → Bool)
    (httpOk : Version → Bool) (hok : ∀ v, httpOk v = true) :
    ∀ (l : List Version) (n : Nat) (v : Version),
      Event.deleteCall v ∈ (runFrom false yes confirm httpOk n l).events →
      v ∈ (runFrom false yes confirm httpOk n l).deleted := by
  intro l
  induction l with
  | nil =>
    intro n v h
    simp [runFrom] at h
  | cons w rest ih =>
    intro n v hmem
    cases hy : yes with
    | true =>
      subst hy
      have hev : (runFrom false true confirm httpOk n (w :: rest)).events
          = Event.deleteCall w
            :: (runFrom false true confirm httpOk n rest).events := by
        simp [runFrom, hok w]
      have hdl : (runFrom false true confirm httpOk n (w :: rest)).deleted
          = w :: (runFrom false true confirm httpOk n rest).deleted := by
        simp [runFrom, hok w]
      rw [hev] at hmem
      rw [hdl]
      rcases List.mem_cons.mp hmem with h1 | h1
      · injection h1 with h1
        rw [h1]
        exact List.mem_cons_self _ _
      · exact List.mem_cons_of_mem _ (ih n v h1)
    | false =>
      subst hy
      by_cases hcf : confirm n
      · have hev : (runFrom false false confirm httpOk n (w :: rest)).events
            = Event.prompt w :: Event.deleteCall w
              :: (runFrom false false confirm httpOk (n + 1) rest).events := by
          simp [runFrom, hcf, hok w]
        have hdl : (runFrom false false confirm httpOk n (w :: rest)).deleted
            = w :: (runFrom false false confirm httpOk (n + 1) rest).deleted := by
          simp [runFrom, hcf, hok w]
        rw [hev] at hmem
        rw [hdl]
        rcases List.mem_cons.mp hmem with h1 | h1
        · exact absurd h1 (by simp)
        · rcases List.mem_cons.mp h1 with h2 | h2
          · injection h2 with h2
            rw [h2]
            exact List.mem_cons_self _ _
          · exact List.mem_cons_of_mem _ (ih (n + 1) v h2)
      · have hev : (runFrom false false confirm httpOk n (w :: rest)).events
            = Event.prompt w
              :: (runFrom false false confirm httpOk (n + 1) rest).events := by
          simp [runFrom, hcf]
        have hdl : (runFrom false false confirm httpOk n (w :: rest)).deleted
            = (runFrom false false confirm httpOk (n + 1) rest).deleted := by
          simp [runFrom, hcf]
        rw [hev] at hmem
        rw [hdl]
        rcases List.mem_cons.mp hmem with h1 | h1
        · exact absurd h1 (by simp)
        · exact ih (n + 1) v h1

theorem flattenTD_eq_nil_of_all_empty (g : List (String × List Version))
    (h : ∀ e ∈ g, e.2 = ([] : List Version)) : flattenTD g = [] := by
  induction g with
  | nil => rfl
  | cons e rest ih =>
    have he := h e (List.mem_cons_self _ _)
    have hrest := ih (fun x hx => h x (List.mem_cons_of_mem _ hx))
    obtain ⟨p, vs⟩ := e
    show vs ++ flattenTD rest = []
    simp only at he
    rw [he, hrest]
    rfl

/-! ### Claims C5, C6, C8: the executor -/

/-- Claim C5: under `dryrun = true` no DELETE request is ever issued
regardless of confirmation outcomes, the reported deleted list is exactly
the confirmed candidates (in order), and the HTTP response cache is not
cleared. -/
theorem dryrun_never_deletes (c : DateCutoffResult) (limit : Option Int)
    (yes : Bool) (confirm : Nat → Bool) (httpOk : Version → Bool) :
    (∀ v, Event.deleteCall v
        ∉ (deleteOldVersionsRun true c limit yes confirm httpOk).events) ∧
    (deleteOldVersionsRun true c limit yes confirm httpOk).deleted
      = confirmedFrom yes confirm 0 (flattenTD (selectDeletions c).2) ∧
    (deleteOldVersionsRun true c limit yes confirm httpOk).cacheCleared
      = false := by
  rw [deleteOldVersionsRun_eq]
  by_cases he : (selectDeletions c).2.isEmpty
  · have hflat : flattenTD (selectDeletions c).2 = [] := by
      rw [List.isEmpty_iff] at he
      rw [he]
      rfl
    simp [he, hflat, confirmedFrom]
  · have hab : (runFrom true yes confirm httpOk 0
        (flattenTD (selectDeletions c).2)).aborted = false :=
      runFrom_not_aborted true yes confirm httpOk (Or.inl rfl) _ 0
    simp only [he, Bool.false_eq_true, if_false, hab]
    refine ⟨?_, ?_, rfl⟩
    · intro v
      exact runFrom_dryrun_no_deleteCall yes confirm httpOk _ 0 v
    · exact runFrom_deleted_eq true yes confirm httpOk (Or.inl rfl) _ 0

/-- Claim C6: with `autoConfirm = false` (no `--yes`), a declined prompt
excludes that candidate from the deleted result, no delete call is issued
for it (delete calls happen only for confirmed candidates), and
processing continues: every flattened candidate is prompted, in order,
and the batch is never aborted by a skip (here: with a transport that
never fails, the run does not abort at all). -/
theorem decline_skips_and_continues (c : DateCutoffResult)
    (limit : Option Int) (dryrun : Bool) (confirm : Nat → Bool)
    (httpOk : Version → Bool) (hok : ∀ v, httpOk v = true) :
    (deleteOldVersionsRun dryrun c limit false confirm httpOk).aborted
      = false ∧
    (deleteOldVersionsRun dryrun c limit false confirm httpOk).deleted
      = confirmedFrom false confirm 0 (flattenTD (selectDeletions c).2) ∧
    promptsOf (deleteOldVersionsRun dryrun c limit false confirm httpOk).events
      = flattenTD (selectDeletions c).2 ∧
    (∀ v, Event.deleteCall v
        ∈ (deleteOldVersionsRun dryrun c limit false confirm httpOk).events →
      v ∈ confirmedFrom false confirm 0 (flattenTD (selectDeletions c).2)) := by
  rw [deleteOldVersionsRun_eq]
  by_cases he : (selectDeletions c).2.isEmpty
  · have hflat : flattenTD (selectDeletions c).2 = [] := by
      rw [List.isEmpty_iff] at he
      rw [he]
      rfl
    simp [he, hflat, confirmedFrom, promptsOf]
  · have hab : (runFrom dryrun false confirm httpOk 0
        (flattenTD (selectDeletions c).2)).aborted = false :=
      runFrom_not_aborted dryrun false confirm httpOk (Or.inr hok) _ 0
    simp only [he, Bool.false_eq_true, if_false, hab]
    refine ⟨by trivial, ?_, ?_, ?_⟩
    · exact runFrom_deleted_eq dryrun false confirm httpOk (Or.inr hok) _ 0
    · exact runFrom_prompts_eq dryrun confirm httpOk (Or.inr hok) _ 0
    · intro v hv
      cases hd : dryrun with
      | true =>
        subst hd
        exact absurd hv (runFrom_dryrun_no_deleteCall false confirm httpOk _ 0 v)
      | false =>
        subst hd
        have := runFrom_deleteCall_in_deleted false confirm httpOk hok _ 0 v hv
        rwa [runFrom_deleted_eq false false confirm httpOk (Or.inr hok) _ 0]
          at this

/-- Claim C8: in a non-dry-run batch, a failing DELETE (non-2xx response)
is fatal: the run aborts, the cache is not cleared, every reported-deleted
candidate did get a DELETE call, and the event trace ends exactly at the
first failing DELETE call — nothing (no prompt, no delete, no retry)
happens after it. -/
theorem failed_delete_aborts (c : DateCutoffResult) (limit : Option Int)
    (yes : Bool) (confirm : Nat → Bool) (httpOk : Version → Bool)
    (h : ∃ v, Event.deleteCall v
        ∈ (deleteOldVersionsRun false c limit yes confirm httpOk).events ∧
      httpOk v = false) :
    (deleteOldVersionsRun false c limit yes confirm httpOk).aborted = true ∧
    (deleteOldVersionsRun false c limit yes confirm httpOk).cacheCleared
      = false ∧
    (∀ v ∈ (deleteOldVersionsRun false c limit yes confirm httpOk).deleted,
      Event.deleteCall v
        ∈ (deleteOldVersionsRun false c limit yes confirm httpOk).events) ∧
    ∃ es w, (deleteOldVersionsRun false c limit yes confirm httpOk).events
        = es ++ [Event.deleteCall w] ∧ httpOk w = false ∧
      (∀ u, Event.deleteCall u ∈ es → httpOk u = true) := by
  obtain ⟨v, hv, hvfail⟩ := h
  rw [deleteOldVersionsRun_eq] at hv ⊢
  by_cases he : (selectDeletions c).2.isEmpty
  · simp [he] at hv
  · have hvr : Event.deleteCall v ∈ (runFrom false yes confirm httpOk 0
        (flattenTD (selectDeletions c).2)).events := by
      by_cases hab : (runFrom false yes confirm httpOk 0
          (flattenTD (selectDeletions c).2)).aborted
      · simpa [he, hab] using hv
      · simpa [he, hab] using hv
    have hab : (runFrom false yes confirm httpOk 0
        (flattenTD (selectDeletions c).2)).aborted = true :=
      runFrom_failing_deleteCall_aborts false yes confirm httpOk _ 0 v hvr hvfail
    simp only [he, Bool.false_eq_true, if_false, hab, if_true]
    refine ⟨by trivial, by trivial, ?_, ?_⟩
    · intro u hu
      exact runFrom_deleted_have_deleteCall yes confirm httpOk _ 0 u hu
    · exact runFrom_abort_shape false yes confirm httpOk _ 0 hab

/-- Sample versions for the limit scenario (spec Scenario C). -/
def wA1 : Version :=
  { owner := "oz", repo := "zipkin", package := "pkgA", name := "a1",
    created := 100, updated := 100 }

def wA2 : Version :=
  { owner := "oz", repo := "zipkin", package := "pkgA", name := "a2",
    created := 200, updated := 200 }

def wB1 : Version :=
  { owner := "oz", repo := "zipkin", package := "pkgB", name := "b1",
    created := 150, updated := 150 }

def wA3 : Version :=
  { owner := "oz", repo := "zipkin", package := "pkgA", name := "a3",
    created := 900, updated := 900 }

def wB2 : Version :=
  { owner := "oz", repo := "zipkin", package := "pkgB", name := "b2",
    created := 950, updated := 950 }

/-- The Scenario C cutoff result: delete candidates
`{pkgA: [a1, a2], pkgB: [b1]}`, with a recent version in each package so
the rescue step leaves the candidates untouched. -/
def cScenC : DateCutoffResult :=
  { cutoff := 500, old := [wA1, wA2, wB1], new := [wA3, wB2] }

/-- Claim C2 is false on the code: `_delete_old_versions` accepts `limit`
but never reads it, so the run is identical for every limit value, and in
the spec's Scenario C (`limit = 1`, candidates
`{pkgA: [a1, a2], pkgB: [b1]}`) all three candidates are attempted and
reported deleted, not just `a1`. -/
theorem limit_is_ignored :
    (∀ (dryrun : Bool) (c : DateCutoffResult) (l1 l2 : Option Int)
        (yes : Bool) (confirm : Nat → Bool) (httpOk : Version → Bool),
      deleteOldVersionsRun dryrun c l1 yes confirm httpOk
        = deleteOldVersionsRun dryrun c l2 yes confirm httpOk) ∧
    (deleteOldVersionsRun true cScenC (some 1) true (fun _ => true)
        (fun _ => true)).deleted = [wA1, wA2, wB1] :=
  ⟨fun _ _ _ _ _ _ _ => rfl, by decide⟩

/-! ### Claim C4: the nothing-to-delete signal -/

/-- Counterexample to claim C4 as stated: for the input with a single old
version and no new versions, the rescue step leaves the delete-candidate
mapping with one package whose candidate list is empty; every package's
delete-candidate list is empty, yet the code does not signal "nothing to
delete" (`if not versions_to_delete` only checks that the dict has no
keys). -/
theorem nothing_to_delete_not_signaled :
    (selectDeletions { cutoff := 300, old := [wDemoV1], new := [] }).2
      = [("demo", [])] ∧
    (deleteOldVersionsRun true { cutoff := 300, old := [wDemoV1], new := [] }
        none true (fun _ => true) (fun _ => true)).signaledNothing
      = false := by
  decide

/-- Claim C4 amended: the "nothing to delete" signal is emitted exactly
when the delete-candidate mapping has no packages at all; when package
keys remain but every candidate list is empty (as the rescue pop can
arrange), the signal is not emitted — nonetheless no prompts and no
delete or simulated-delete calls are performed, nothing is reported
deleted, and the run does not abort. -/
theorem nothing_to_delete_amended (dryrun : Bool) (c : DateCutoffResult)
    (limit : Option Int) (yes : Bool) (confirm : Nat → Bool)
    (httpOk : Version → Bool) :
    ((deleteOldVersionsRun dryrun c limit yes confirm httpOk).signaledNothing
        = true ↔ (selectDeletions c).2 = []) ∧
    ((∀ e ∈ (selectDeletions c).2, e.2 = ([] : List Version)) →
      (deleteOldVersionsRun dryrun c limit yes confirm httpOk).events = []
        ∧ (deleteOldVersionsRun dryrun c limit yes confirm httpOk).deleted = []
        ∧ (deleteOldVersionsRun dryrun c limit yes confirm httpOk).aborted
            = false) := by
  rw [deleteOldVersionsRun_eq]
  by_cases he : (selectDeletions c).2.isEmpty
  · rw [List.isEmpty_iff] at he
    simp [he]
  · have he' : ¬ (selectDeletions c).2 = [] := by
      rw [← List.isEmpty_iff]
      exact he
    constructor
    · simp only [he, Bool.false_eq_true, if_false]
      by_cases hab : (runFrom dryrun yes confirm httpOk 0
          (flattenTD (selectDeletions c).2)).aborted
      · simp [hab, he']
      · simp [hab, he']
    · intro hall
      have hflat : flattenTD (selectDeletions c).2 = [] :=
        flattenTD_eq_nil_of_all_empty _ hall
      have hab : (runFrom dryrun yes confirm httpOk 0
          (flattenTD (selectDeletions c).2)).aborted = false := by
        rw [hflat]
        simp [runFrom]
      simp only [he, Bool.false_eq_true, if_false, hab]
      rw [hflat]
      simp [runFrom]

/-- Witness for the amended claim C4 at the counterexample input: the
all-lists-empty run performs nothing and does not abort. -/
theorem nothing_to_delete_amended_witness :
    (deleteOldVersionsRun true { cutoff := 300, old := [wDemoV1], new := [] }
        none true (fun _ => true) (fun _ => true)).events = [] ∧
    (deleteOldVersionsRun true { cutoff := 300, old := [wDemoV1], new := [] }
        none true (fun _ => true) (fun _ => true)).deleted = [] ∧
    (deleteOldVersionsRun true { cutoff := 300, old := [wDemoV1], new := [] }
        none true (fun _ => true) (fun _ => true)).aborted = false :=
  (nothing_to_delete_amended true
    { cutoff := 300, old := [wDemoV1], new := [] } none true
    (fun _ => true) (fun _ => true)).2 (by decide)

/-- A recent `demo` version, to keep `demo` in the keep-set in witness
scenarios with two delete candidates. -/
def wDemoV3 : Version :=
  { owner := "oz", repo := "zipkin", package := "demo", name := "v3",
    created := 900, updated := 900 }

/-- Scenario E input: two delete candidates `v1`, `v2` for `demo`,
`v3` recent. -/
def cScenE : DateCutoffResult :=
  { cutoff := 500, old := [wDemoV1, wDemoV2], new := [wDemoV3] }

/-- Witness for claim C6 at the spec's Scenario E: declining the first of
two candidates leaves only the confirmed second one in the deleted list,
with no abort. -/
theorem decline_skips_and_continues_witness :
    (deleteOldVersionsRun false cScenE none false (fun n => decide (n = 1))
        (fun _ => true)).aborted = false ∧
    (deleteOldVersionsRun false cScenE none false (fun n => decide (n = 1))
        (fun _ => true)).deleted = [wDemoV2] := by
  have h := decline_skips_and_continues cScenE none false
    (fun n => decide (n = 1)) (fun _ => true) (fun _ => rfl)
  exact ⟨h.1, h.2.1.trans (by decide)⟩

/-- Witness for claim C8 at a concrete input: with a transport that fails
every DELETE, the first confirmed candidate's failing call aborts the
batch and the cache is not cleared. -/
theorem failed_delete_aborts_witness :
    (deleteOldVersionsRun false cScenE none true (fun _ => true)
        (fun _ => false)).aborted = true ∧
    (deleteOldVersionsRun false cScenE none true (fun _ => true)
        (fun _ => false)).cacheCleared = false := by
  have h := failed_delete_aborts cScenE none true (fun _ => true)
    (fun _ => false) ⟨wDemoV1, by decide, rfl⟩
  exact ⟨h.1, h.2.1⟩

/-! ### A store model of Python lists, for the selection phase

`group_versions_by_package` allocates fresh list objects and
`_delete_old_versions`'s rescue loop pops only from those fresh lists;
the claims C9/C10 are about this aliasing discipline, so here the same
code is embedded once more with Python's mutable list objects made
explicit: a `Store` is the heap of list objects, an address is an index
into it.  Version records are embedded as immutable values because the
selection phase of the source contains no assignment to a version dict. -/

structure Store where
  cells : List (List Version)
deriving DecidableEq, Repr

/-- Read the list object at address `p`. -/
def readL (s : Store) (p : Nat) : List Version :=
  s.cells.getD p []

/-- Overwrite the list object at address `p` (in-place mutation such as
`list.pop()` or `list.append`). -/
def writeL (s : Store) (p : Nat) (l : List Version) : Store :=
  { cells := s.cells.set p l }

/-- Allocate a fresh list object, returning the new store and its
address. -/
def allocL (s : Store) (l : List Version) : Store × Nat :=
  ({ cells := s.cells ++ [l] }, s.cells.length)

/-- One step of the heap version of `group_versions_by_package`:
`by_package[version["package"]].append(version)` on a
`defaultdict(list)` — a missing key first allocates a fresh empty list. -/
def groupStep (acc : Store × List (String × Nat)) (v : Version) :
    Store × List (String × Nat) :=
  match findGroup acc.2 v.package with
  | some q => (writeL acc.1 q (readL acc.1 q ++ [v]), acc.2)
  | none =>
    let a := allocL acc.1 []
    (writeL a.1 a.2 (readL a.1 a.2 ++ [v]), acc.2 ++ [(v.package, a.2)])

/-- Heap version of `group_versions_by_package`: the grouping dict maps
package names to addresses of freshly allocated list objects. -/
def groupH (s : Store) (versions : List Version) :
    Store × List (String × Nat) :=
  versions.foldl groupStep (s, [])

/-- One step of the heap version of the rescue loop: a package absent
from the keep dict has its group popped in place
(`my_versions_to_delete.pop()`) and a fresh one-element list installed
in the keep dict. -/
def rescueStepH (acc : Store × List (String × Nat)) (e : String × Nat) :
    Store × List (String × Nat) :=
  if (findGroup acc.2 e.1).isSome then acc
  else
    match (readL acc.1 e.2).getLast? with
    | some preserve =>
      let s1 := writeL acc.1 e.2 (readL acc.1 e.2).dropLast
      let a := allocL s1 [preserve]
      (a.1, acc.2 ++ [(e.1, a.2)])
    | none => acc

/-- Heap version of the rescue loop; the delete dict's own entries
(package names and addresses) never change, only the list objects they
point to. -/
def rescueH (s : Store) (toKeep toDelete : List (String × Nat)) :
    Store × List (String × Nat) :=
  toDelete.foldl rescueStepH (s, toKeep)

/-- Heap version of the selection phase of `_delete_old_versions`:
`cutoff_result.old` and `cutoff_result.new` live at the given addresses.
Returns (store, toKeep dict, toDelete dict). -/
def selectH (s : Store) (oldPtr newPtr : Nat) :
    Store × List (String × Nat) × List (String × Nat) :=
  let k := groupH s (readL s newPtr)
  let d := groupH k.1 (readL k.1 oldPtr)
  let r := rescueH d.1 k.2 d.2
  (r.1, r.2, d.2)

/-- Dereference a grouping dict into the value world. -/
def readAssoc (s : Store) (g : List (String × Nat)) :
    List (String × List Version) :=
  g.map (fun e => (e.1, readL s e.2))

theorem readL_writeL_self (s : Store) (q : Nat) (l : List Version)
    (h : q < s.cells.length) : readL (writeL s q l) q = l := by
  simp [readL, writeL, List.getD, List.getElem?_set_self, h]

theorem readL_writeL_ne (s : Store) (q : Nat) (l : List Version) (p : Nat)
    (h : p ≠ q) : readL (writeL s q l) p = readL s p := by
  simp [readL, writeL, List.getD, List.getElem?_set_ne (Ne.symm h)]

theorem readL_alloc_lt (s : Store) (l : List Version) (p : Nat)
    (h : p < s.cells.length) : readL (allocL s l).1 p = readL s p := by
  simp [readL, allocL, List.getD, List.getElem?_append_left h]

theorem readL_alloc_self (s : Store) (l : List Version) :
    readL (allocL s l).1 (allocL s l).2 = l := by
  simp [readL, allocL, List.getD, List.getElem?_concat_length]

theorem writeL_length (s : Store) (q : Nat) (l : List Version) :
    (writeL s q l).cells.length = s.cells.length := by
  simp [writeL]

theorem allocL_length (s : Store) (l : List Version) :
    ((allocL s l).1).cells.length = s.cells.length + 1 := by
  simp [allocL]

theorem readAssoc_congr (s s' : Store) (g : List (String × Nat))
    (h : ∀ e ∈ g, readL s' e.2 = readL s e.2) :
    readAssoc s' g = readAssoc s g := by
  unfold readAssoc
  apply List.map_congr_left
  intro e he
  rw [h e he]

theorem findGroup_readAssoc (s : Store) (g : List (String × Nat))
    (p : String) :
    findGroup (readAssoc s g) p = (findGroup g p).map (readL s) := by
  induction g with
  | nil => simp [readAssoc, findGroup]
  | cons e rest ih =>
    obtain ⟨k, q⟩ := e
    by_cases h : k = p
    · simp [readAssoc, findGroup, h]
    · simp only [readAssoc, List.map_cons] at ih ⊢
      simp [findGroup, h, ih]

theorem findGroup_val_mem {α : Type} (g : List (String × α)) (p : String)
    (x : α) (h : findGroup g p = some x) : x ∈ g.map Prod.snd := by
  induction g with
  | nil => simp [findGroup] at h
  | cons e rest ih =>
    obtain ⟨k, v⟩ := e
    by_cases hk : k = p
    · rw [findGroup, if_pos hk] at h
      injection h with h
      simp [h]
    · rw [findGroup, if_neg hk] at h
      simp [ih h]

theorem addToGroup_of_none (G : List (String × List Version)) (v : Version)
    (h : findGroup G v.package = none) :
    addToGroup G v = G ++ [(v.package, [v])] := by
  induction G with
  | nil => simp [addToGroup]
  | cons e rest ih =>
    obtain ⟨k, vs⟩ := e
    by_cases hk : k = v.package
    · rw [findGroup, if_pos hk] at h
      exact absurd h (by simp)
    · have hk' : ¬ v.package = k := fun hh => hk hh.symm
      rw [findGroup, if_neg hk] at h
      simp [addToGroup, hk, ih h]

theorem readAssoc_write_found (s : Store) (g : List (String × Nat))
    (v : Version) (q : Nat) (hf : findGroup g v.package = some q)
    (hval : ∀ e ∈ g, e.2 < s.cells.length)
    (hnd : (g.map Prod.snd).Nodup) :
    readAssoc (writeL s q (readL s q ++ [v])) g
      = addToGroup (readAssoc s g) v := by
  induction g with
  | nil => simp [findGroup] at hf
  | cons e rest ih =>
    obtain ⟨k, r⟩ := e
    simp only [List.map_cons, List.nodup_cons] at hnd
    by_cases hk : k = v.package
    · rw [findGroup, if_pos hk] at hf
      injection hf with hf
      subst hf
      have hq : r < s.cells.length := hval (k, r) (by simp)
      have hhead : readL (writeL s r (readL s r ++ [v])) r
          = readL s r ++ [v] := readL_writeL_self s r _ hq
      have htail : readAssoc (writeL s r (readL s r ++ [v])) rest
          = readAssoc s rest := by
        apply readAssoc_congr
        intro e he
        apply readL_writeL_ne
        intro hpq
        exact hnd.1 (hpq ▸ List.mem_map_of_mem Prod.snd he)
      show (k, readL (writeL s r (readL s r ++ [v])) r)
          :: readAssoc (writeL s r (readL s r ++ [v])) rest
        = addToGroup ((k, readL s r) :: readAssoc s rest) v
      rw [hhead, htail]
      simp [addToGroup, hk]
    · rw [findGroup, if_neg hk] at hf
      have hrq : r ≠ q := by
        intro hpq
        exact hnd.1 (hpq ▸ findGroup_val_mem rest v.package q hf)
      have hhead : readL (writeL s q (readL s q ++ [v])) r = readL s r :=
        readL_writeL_ne s q _ r hrq
      have htail := ih hf (fun e he => hval e (List.mem_cons_of_mem _ he))
        hnd.2
      show (k, readL (writeL s q (readL s q ++ [v])) r)
          :: readAssoc (writeL s q (readL s q ++ [v])) rest
        = addToGroup ((k, readL s r) :: readAssoc s rest) v
      rw [hhead, htail]
      simp [addToGroup, hk]

theorem readAssoc_groupStep (s : Store) (g : List (String × Nat))
    (v : Version) (hval : ∀ e ∈ g, e.2 < s.cells.length)
    (hnd : (g.map Prod.snd).Nodup) :
    readAssoc (groupStep (s, g) v).1 (groupStep (s, g) v).2
      = addToGroup (readAssoc s g) v := by
  cases hf : findGroup g v.package with
  | some q =>
    have hstep : groupStep (s, g) v = (writeL s q (readL s q ++ [v]), g) := by
      simp [groupStep, hf]
    rw [hstep]
    exact readAssoc_write_found s g v q hf hval hnd
  | none =>
    have hfG : findGroup (readAssoc s g) v.package = none := by
      rw [findGroup_readAssoc, hf]
      rfl
    have hstep : groupStep (s, g) v
        = (writeL (allocL s []).1 (allocL s []).2
            (readL (allocL s []).1 (allocL s []).2 ++ [v]),
           g ++ [(v.package, (allocL s []).2)]) := by
      simp [groupStep, hf]
    rw [hstep, addToGroup_of_none _ _ hfG]
    have hq : (allocL s []).2 = s.cells.length := rfl
    have hlen : ((allocL s []).1).cells.length = s.cells.length + 1 :=
      allocL_length s []
    have hself : readL (allocL s []).1 (allocL s []).2 = [] :=
      readL_alloc_self s []
    have hwself : readL
        (writeL (allocL s []).1 (allocL s []).2
          (readL (allocL s []).1 (allocL s []).2 ++ [v]))
        (allocL s []).2 = [v] := by
      rw [hself]
      have : (allocL s []).2 < ((allocL s []).1).cells.length := by
        rw [hq, hlen]
        exact Nat.lt_succ_self _
      simpa using readL_writeL_self (allocL s []).1 (allocL s []).2 [v] this
    have htail : readAssoc
        (writeL (allocL s []).1 (allocL s []).2
          (readL (allocL s []).1 (allocL s []).2 ++ [v])) g
        = readAssoc s g := by
      apply readAssoc_congr
      intro e he
      have hlt : e.2 < s.cells.length := hval e he
      have hne : e.2 ≠ (allocL s []).2 := by
        rw [hq]
        exact Nat.ne_of_lt hlt
      rw [readL_writeL_ne _ _ _ _ hne]
      exact readL_alloc_lt s [] e.2 hlt
    show readAssoc _ (g ++ [(v.package, (allocL s []).2)])
      = readAssoc s g ++ [(v.package, [v])]
    unfold readAssoc
    rw [List.map_append]
    unfold readAssoc at htail
    rw [htail]
    simp [hwself]

/-- Invariant of the heap grouping fold: the store is at least `n₀` cells
long, every group address is fresh (at least `n₀`) and valid, and
addresses are pairwise distinct. -/
def GroupInv (n₀ : Nat) (s : Store) (g : List (String × Nat)) : Prop :=
  n₀ ≤ s.cells.length ∧
  (∀ e ∈ g, n₀ ≤ e.2 ∧ e.2 < s.cells.length) ∧
  (g.map Prod.snd).Nodup

theorem groupStep_inv (n₀ : Nat) (s : Store) (g : List (String × Nat))
    (v : Version) (h : GroupInv n₀ s g) :
    GroupInv n₀ (groupStep (s, g) v).1 (groupStep (s, g) v).2 ∧
    s.cells.length ≤ (groupStep (s, g) v).1.cells.length ∧
    (∀ p, p < n₀ → readL (groupStep (s, g) v).1 p = readL s p) := by
  obtain ⟨hlen, hval, hnd⟩ := h
  cases hf : findGroup g v.package with
  | some q =>
    have hstep : groupStep (s, g) v = (writeL s q (readL s q ++ [v]), g) := by
      simp [groupStep, hf]
    rw [hstep]
    have hqmem : q ∈ g.map Prod.snd := findGroup_val_mem g v.package q hf
    obtain ⟨e, he, heq⟩ := List.mem_map.mp hqmem
    have hq : n₀ ≤ q ∧ q < s.cells.length := heq ▸ hval e he
    refine ⟨⟨?_, ?_, hnd⟩, ?_, ?_⟩
    · rw [writeL_length]
      exact hlen
    · intro e' he'
      rw [writeL_length]
      exact hval e' he'
    · rw [writeL_length]
    · intro p hp
      exact readL_writeL_ne s q _ p (Nat.ne_of_lt (lt_of_lt_of_le hp hq.1))
  | none =>
    have hstep : groupStep (s, g) v
        = (writeL (allocL s []).1 (allocL s []).2
            (readL (allocL s []).1 (allocL s []).2 ++ [v]),
           g ++ [(v.package, (allocL s []).2)]) := by
      simp [groupStep, hf]
    rw [hstep]
    have hq : (allocL s []).2 = s.cells.length := rfl
    have hlen2 : (writeL (allocL s []).1 (allocL s []).2
        (readL (allocL s []).1 (allocL s []).2 ++ [v])).cells.length
        = s.cells.length + 1 := by
      rw [writeL_length, allocL_length]
    refine ⟨⟨?_, ?_, ?_⟩, ?_, ?_⟩
    · rw [hlen2]
      exact le_trans hlen (Nat.le_succ _)
    · intro e' he'
      rw [hlen2]
      rcases List.mem_append.mp he' with h1 | h1
      · have := hval e' h1
        exact ⟨this.1, lt_trans this.2 (Nat.lt_succ_self _)⟩
      · simp only [List.mem_singleton] at h1
        rw [h1]
        exact ⟨by rw [hq] at *; exact hlen, by rw [hq]; exact Nat.lt_succ_self _⟩
    · rw [List.map_append]
      rw [List.nodup_append]
      refine ⟨hnd, by simp, ?_⟩
      rw [List.disjoint_left]
      intro a ha hamem
      simp only [List.map_cons, List.map_nil, List.mem_singleton] at hamem
      obtain ⟨e, he, heq⟩ := List.mem_map.mp ha
      have := (hval e he).2
      rw [heq, hamem, hq] at this
      exact absurd this (lt_irrefl _)
    · rw [hlen2]
      exact Nat.le_succ _
    · intro p hp
      have hplt : p < s.cells.length := lt_of_lt_of_le hp hlen
      have hne : p ≠ (allocL s []).2 := by
        rw [hq]
        exact Nat.ne_of_lt hplt
      rw [readL_writeL_ne _ _ _ _ hne]
      exact readL_alloc_lt s [] p hplt

theorem groupH_go (l : List Version) :
    ∀ (s : Store) (g : List (String × Nat)) (n₀ : Nat),
    GroupInv n₀ s g →
    GroupInv n₀ (l.foldl groupStep (s, g)).1 (l.foldl groupStep (s, g)).2 ∧
    s.cells.length ≤ (l.foldl groupStep (s, g)).1.cells.length ∧
    (∀ p, p < n₀ → readL (l.foldl groupStep (s, g)).1 p = readL s p) ∧
    readAssoc (l.foldl groupStep (s, g)).1 (l.foldl groupStep (s, g)).2
      = l.foldl addToGroup (readAssoc s g) := by
  induction l with
  | nil =>
    intro s g n₀ h
    exact ⟨h, le_refl _, fun p _ => rfl, rfl⟩
  | cons v rest ih =>
    intro s g n₀ h
    have hstep := groupStep_inv n₀ s g v h
    have hra := readAssoc_groupStep s g v (fun e he => (h.2.1 e he).2) h.2.2
    rw [List.foldl_cons, List.foldl_cons]
    rcases hsg : groupStep (s, g) v with ⟨s', g'⟩
    rw [hsg] at hstep hra
    obtain ⟨hinv', hle', hrd'⟩ := hstep
    obtain ⟨hinv2, hle2, hrd2, hra2⟩ := ih s' g' n₀ hinv'
    refine ⟨hinv2, le_trans hle' hle2, ?_, ?_⟩
    · intro p hp
      rw [hrd2 p hp, hrd' p hp]
    · rw [hra2, hra]

/-- The heap grouping: preserves every pre-existing cell, returns a dict
of fresh, valid, pairwise-distinct addresses, and its dereferenced value
is exactly the pure `group_versions_by_package`. -/
theorem groupH_spec (s : Store) (l : List Version) :
    GroupInv s.cells.length (groupH s l).1 (groupH s l).2 ∧
    s.cells.length ≤ (groupH s l).1.cells.length ∧
    (∀ p, p < s.cells.length → readL (groupH s l).1 p = readL s p) ∧
    readAssoc (groupH s l).1 (groupH s l).2
      = group_versions_by_package l := by
  have h := groupH_go l s [] s.cells.length
    ⟨le_refl _, by simp, by simp⟩
  exact h

theorem readAssoc_append (s : Store) (g1 g2 : List (String × Nat)) :
    readAssoc s (g1 ++ g2) = readAssoc s g1 ++ readAssoc s g2 := by
  unfold readAssoc
  exact List.map_append _ g1 g2

theorem rescueH_go (td : List (String × Nat)) :
    ∀ (s : Store) (tk : List (String × Nat)),
    (∀ e ∈ tk, e.2 < s.cells.length) →
    (∀ e ∈ td, e.2 < s.cells.length) →
    (tk.map Prod.snd ++ td.map Prod.snd).Nodup →
    s.cells.length ≤ (rescueH s tk td).1.cells.length ∧
    (∀ p, p < s.cells.length → p ∉ td.map Prod.snd →
      readL (rescueH s tk td).1 p = readL s p) ∧
    readAssoc (rescueH s tk td).1 (rescueH s tk td).2
      = (rescue (readAssoc s tk) (readAssoc s td)).1 ∧
    readAssoc (rescueH s tk td).1 td
      = (rescue (readAssoc s tk) (readAssoc s td)).2 := by
  induction td with
  | nil =>
    intro s tk _ _ _
    exact ⟨le_refl _, fun p _ _ => rfl, rfl, rfl⟩
  | cons e td' ih =>
    intro s tk htk htd hnd
    have he2lt : e.2 < s.cells.length := htd e (List.mem_cons_self _ _)
    have hndm : (e.2 :: (tk.map Prod.snd ++ td'.map Prod.snd)).Nodup := by
      rw [← List.nodup_middle]
      simpa using hnd
    have he2notin : e.2 ∉ tk.map Prod.snd ++ td'.map Prod.snd :=
      (List.nodup_cons.mp hndm).1
    have hndrest : (tk.map Prod.snd ++ td'.map Prod.snd).Nodup :=
      (List.nodup_cons.mp hndm).2
    have he2tk : e.2 ∉ tk.map Prod.snd := fun h =>
      he2notin (List.mem_append.mpr (Or.inl h))
    have he2td' : e.2 ∉ td'.map Prod.snd := fun h =>
      he2notin (List.mem_append.mpr (Or.inr h))
    have hfmap : findGroup (readAssoc s tk) e.1
        = (findGroup tk e.1).map (readL s) := findGroup_readAssoc s tk e.1
    have hRA : readAssoc s (e :: td')
        = (e.1, readL s e.2) :: readAssoc s td' := rfl
    have hfold : rescueH s tk (e :: td')
        = List.foldl rescueStepH (rescueStepH (s, tk) e) td' := rfl
    cases hf : findGroup tk e.1 with
    | some x =>
      have hstepA : rescueStepH (s, tk) e = (s, tk) := by
        simp [rescueStepH, hf]
      have hr : rescueH s tk (e :: td') = rescueH s tk td' := by
        rw [hfold, hstepA]
        rfl
      have hfK : findGroup (readAssoc s tk) e.1 = some (readL s x) := by
        rw [hfmap, hf]
        rfl
      have hpure : rescue (readAssoc s tk) (readAssoc s (e :: td'))
          = ((rescue (readAssoc s tk) (readAssoc s td')).1,
             (e.1, readL s e.2)
               :: (rescue (readAssoc s tk) (readAssoc s td')).2) := by
        rw [hRA]
        simp [rescue, hfK]
      obtain ⟨ihle, ihfr, ihk, ihd⟩ := ih s tk htk
        (fun x hx => htd x (List.mem_cons_of_mem _ hx)) hndrest
      rw [hr, hpure]
      refine ⟨ihle, ?_, ihk, ?_⟩
      · intro p hp hpm
        exact ihfr p hp (fun h => hpm (by simp [h]))
      · show (e.1, readL (rescueH s tk td').1 e.2)
            :: readAssoc (rescueH s tk td').1 td' = _
        rw [ihfr e.2 he2lt he2td', ihd]
    | none =>
      have hfK : findGroup (readAssoc s tk) e.1 = none := by
        rw [hfmap, hf]
        rfl
      cases hl : (readL s e.2).getLast? with
      | none =>
        have hstepC : rescueStepH (s, tk) e = (s, tk) := by
          simp [rescueStepH, hf, hl]
        have hr : rescueH s tk (e :: td') = rescueH s tk td' := by
          rw [hfold, hstepC]
          rfl
        have hpure : rescue (readAssoc s tk) (readAssoc s (e :: td'))
            = ((rescue (readAssoc s tk) (readAssoc s td')).1,
               (e.1, readL s e.2)
                 :: (rescue (readAssoc s tk) (readAssoc s td')).2) := by
          rw [hRA]
          simp [rescue, hfK, hl]
        obtain ⟨ihle, ihfr, ihk, ihd⟩ := ih s tk htk
          (fun x hx => htd x (List.mem_cons_of_mem _ hx)) hndrest
        rw [hr, hpure]
        refine ⟨ihle, ?_, ihk, ?_⟩
        · intro p hp hpm
          exact ihfr p hp (fun h => hpm (by simp [h]))
        · show (e.1, readL (rescueH s tk td').1 e.2)
              :: readAssoc (rescueH s tk td').1 td' = _
          rw [ihfr e.2 he2lt he2td', ihd]
      | some pr =>
        have hstepB : rescueStepH (s, tk) e
            = ((allocL (writeL s e.2 (readL s e.2).dropLast) [pr]).1,
               tk ++ [(e.1,
                 (allocL (writeL s e.2 (readL s e.2).dropLast) [pr]).2)]) := by
          simp [rescueStepH, hf, hl]
        have hq : (allocL (writeL s e.2 (readL s e.2).dropLast) [pr]).2
            = s.cells.length := by
          show (writeL s e.2 (readL s e.2).dropLast).cells.length = _
          exact writeL_length _ _ _
        have hlenB : ((allocL (writeL s e.2 (readL s e.2).dropLast)
            [pr]).1).cells.length = s.cells.length + 1 := by
          rw [allocL_length, writeL_length]
        have hreadB : ∀ p, p < s.cells.length → p ≠ e.2 →
            readL (allocL (writeL s e.2 (readL s e.2).dropLast) [pr]).1 p
              = readL s p := by
          intro p hp hpe
          rw [readL_alloc_lt _ _ _ (by rw [writeL_length]; exact hp)]
          exact readL_writeL_ne _ _ _ _ hpe
        have hre2 : readL (allocL (writeL s e.2 (readL s e.2).dropLast)
            [pr]).1 e.2 = (readL s e.2).dropLast := by
          rw [readL_alloc_lt _ _ _ (by rw [writeL_length]; exact he2lt)]
          exact readL_writeL_self _ _ _ he2lt
        have hrq : readL (allocL (writeL s e.2 (readL s e.2).dropLast)
            [pr]).1 (allocL (writeL s e.2 (readL s e.2).dropLast) [pr]).2
            = [pr] := readL_alloc_self _ _
        have hr : rescueH s tk (e :: td')
            = rescueH (allocL (writeL s e.2 (readL s e.2).dropLast) [pr]).1
              (tk ++ [(e.1,
                (allocL (writeL s e.2 (readL s e.2).dropLast) [pr]).2)])
              td' := by
          rw [hfold, hstepB]
          rfl
        have htk' : ∀ x ∈ tk ++ [(e.1,
            (allocL (writeL s e.2 (readL s e.2).dropLast) [pr]).2)],
            x.2 < ((allocL (writeL s e.2 (readL s e.2).dropLast)
              [pr]).1).cells.length := by
          intro x hx
          rw [hlenB]
          rcases List.mem_append.mp hx with h1 | h1
          · exact lt_trans (htk x h1) (Nat.lt_succ_self _)
          · simp only [List.mem_singleton] at h1
            rw [h1]
            simp only [hq]
            exact Nat.lt_succ_self _
        have htd'B : ∀ x ∈ td',
            x.2 < ((allocL (writeL s e.2 (readL s e.2).dropLast)
              [pr]).1).cells.length := by
          intro x hx
          rw [hlenB]
          exact lt_trans (htd x (List.mem_cons_of_mem _ hx))
            (Nat.lt_succ_self _)
        have hnd'B : ((tk ++ [(e.1,
            (allocL (writeL s e.2 (readL s e.2).dropLast) [pr]).2)]).map
              Prod.snd ++ td'.map Prod.snd).Nodup := by
          rw [List.map_append]
          rw [List.append_assoc]
          have : ([(e.1, (allocL (writeL s e.2 (readL s e.2).dropLast)
              [pr]).2)].map Prod.snd) ++ td'.map Prod.snd
              = (allocL (writeL s e.2 (readL s e.2).dropLast) [pr]).2
                :: td'.map Prod.snd := rfl
          rw [this, List.nodup_middle, List.nodup_cons]
          constructor
          · intro hmem
            rcases List.mem_append.mp hmem with h1 | h1
            · obtain ⟨y, hy, hyq⟩ := List.mem_map.mp h1
              have := htk y hy
              rw [hyq, hq] at this
              exact absurd this (lt_irrefl _)
            · obtain ⟨y, hy, hyq⟩ := List.mem_map.mp h1
              have := htd y (List.mem_cons_of_mem _ hy)
              rw [hyq, hq] at this
              exact absurd this (lt_irrefl _)
          · exact hndrest
        have hKB : readAssoc (allocL (writeL s e.2 (readL s e.2).dropLast)
            [pr]).1 (tk ++ [(e.1,
              (allocL (writeL s e.2 (readL s e.2).dropLast) [pr]).2)])
            = readAssoc s tk ++ [(e.1, [pr])] := by
          rw [readAssoc_append]
          congr 1
          · apply readAssoc_congr
            intro x hx
            apply hreadB x.2 (htk x hx)
            intro hxe
            exact he2tk (hxe ▸ List.mem_map_of_mem Prod.snd hx)
          · show [(e.1, readL _ _)] = [(e.1, [pr])]
            rw [hrq]
        have hDB : readAssoc (allocL (writeL s e.2 (readL s e.2).dropLast)
            [pr]).1 td' = readAssoc s td' := by
          apply readAssoc_congr
          intro x hx
          apply hreadB x.2 (htd x (List.mem_cons_of_mem _ hx))
          intro hxe
          exact he2td' (hxe ▸ List.mem_map_of_mem Prod.snd hx)
        have hpure : rescue (readAssoc s tk) (readAssoc s (e :: td'))
            = ((rescue (readAssoc s tk ++ [(e.1, [pr])])
                  (readAssoc s td')).1,
               (e.1, (readL s e.2).dropLast)
                 :: (rescue (readAssoc s tk ++ [(e.1, [pr])])
                      (readAssoc s td')).2) := by
          rw [hRA]
          simp [rescue, hfK, hl]
        obtain ⟨ihle, ihfr, ihk, ihd⟩ := ih
          (allocL (writeL s e.2 (readL s e.2).dropLast) [pr]).1
          (tk ++ [(e.1, (allocL (writeL s e.2 (readL s e.2).dropLast)
            [pr]).2)]) htk' htd'B hnd'B
        rw [hr, hpure]
        rw [hKB, hDB] at ihk ihd
        refine ⟨?_, ?_, ihk, ?_⟩
        · rw [hlenB] at ihle
          exact le_trans (Nat.le_succ _) ihle
        · intro p hp hpm
          have hpe : p ≠ e.2 := fun h => hpm (by simp [h])
          have hptd' : p ∉ td'.map Prod.snd := fun h =>
            hpm (List.mem_cons_of_mem _ h)
          rw [ihfr p (by rw [hlenB]; exact lt_trans hp (Nat.lt_succ_self _))
            hptd']
          exact hreadB p hp hpe
        · have he2B : e.2 < ((allocL (writeL s e.2 (readL s e.2).dropLast)
              [pr]).1).cells.length := by
            rw [hlenB]
            exact lt_trans he2lt (Nat.lt_succ_self _)
          show (e.1, readL (rescueH _ _ td').1 e.2)
              :: readAssoc (rescueH _ _ td').1 td' = _
          rw [ihfr e.2 he2B he2td', hre2, ihd]

/-- Master lemma for the heap selection phase: the store only grows, no
pre-existing cell is ever written (grouping allocates fresh lists, the
rescue pop writes only those fresh lists), and the dereferenced toKeep
and toDelete dicts are exactly the pure `selectDeletions` of the
dereferenced inputs. -/
theorem selectH_master (s : Store) (oldPtr newPtr : Nat) (c : Int)
    (ho : oldPtr < s.cells.length) :
    s.cells.length ≤ ((selectH s oldPtr newPtr).1).cells.length ∧
    (∀ p, p < s.cells.length →
      readL (selectH s oldPtr newPtr).1 p = readL s p) ∧
    readAssoc (selectH s oldPtr newPtr).1 (selectH s oldPtr newPtr).2.1
      = (selectDeletions
          { cutoff := c, old := readL s oldPtr,
            new := readL s newPtr }).1 ∧
    readAssoc (selectH s oldPtr newPtr).1 (selectH s oldPtr newPtr).2.2
      = (selectDeletions
          { cutoff := c, old := readL s oldPtr,
            new := readL s newPtr }).2 := by
  obtain ⟨⟨hkb, hkv, hknd⟩, hkle, hkrd, hkra⟩ := groupH_spec s (readL s newPtr)
  rcases hk : groupH s (readL s newPtr) with ⟨s1, tkp⟩
  rw [hk] at hkb hkv hknd hkle hkrd hkra
  simp only at hkb hkv hknd hkle hkrd hkra
  obtain ⟨⟨hdb, hdv, hdnd⟩, hdle, hdrd, hdra⟩ :=
    groupH_spec s1 (readL s1 oldPtr)
  rcases hd : groupH s1 (readL s1 oldPtr) with ⟨s2, tdp⟩
  rw [hd] at hdb hdv hdnd hdle hdrd hdra
  simp only at hdb hdv hdnd hdle hdrd hdra
  have htk2 : ∀ e ∈ tkp, e.2 < s2.cells.length := fun e he =>
    lt_of_lt_of_le (hkv e he).2 hdle
  have hnd2 : (tkp.map Prod.snd ++ tdp.map Prod.snd).Nodup := by
    rw [List.nodup_append]
    refine ⟨hknd, hdnd, ?_⟩
    rw [List.disjoint_left]
    intro a ha hamem
    obtain ⟨x, hx, hxa⟩ := List.mem_map.mp ha
    obtain ⟨y, hy, hya⟩ := List.mem_map.mp hamem
    have h1 : a < s1.cells.length := hxa ▸ (hkv x hx).2
    have h2 : s1.cells.length ≤ a := hya ▸ (hdv y hy).1
    exact absurd (lt_of_le_of_lt h2 h1) (lt_irrefl _)
  obtain ⟨hrle, hrfr, hrk, hrd2⟩ :=
    rescueH_go tdp s2 tkp htk2 (fun e he => (hdv e he).2) hnd2
  rcases hr : rescueH s2 tkp tdp with ⟨s3, tkf⟩
  rw [hr] at hrle hrfr hrk hrd2
  simp only at hrle hrfr hrk hrd2
  have hsH : selectH s oldPtr newPtr = (s3, tkf, tdp) := by
    simp only [selectH]
    rw [hk]
    dsimp only
    rw [hd]
    dsimp only
    rw [hr]
  rw [hsH]
  dsimp only
  have hold : readL s1 oldPtr = readL s oldPtr := hkrd oldPtr ho
  have hkeq : readAssoc s2 tkp = group_versions_by_package (readL s newPtr) := by
    rw [← hkra]
    apply readAssoc_congr
    intro e he
    exact hdrd e.2 (hkv e he).2
  have hdeq : readAssoc s2 tdp
      = group_versions_by_package (readL s oldPtr) := by
    rw [hdra, hold]
  have hsel : selectDeletions
      { cutoff := c, old := readL s oldPtr, new := readL s newPtr }
      = rescue (group_versions_by_package (readL s newPtr))
          (group_versions_by_package (readL s oldPtr)) := rfl
  have hframe : ∀ p, p < s.cells.length → readL s3 p = readL s p := by
    intro p hp
    have hp1 : p < s1.cells.length := lt_of_lt_of_le hp hkle
    have hp2 : p < s2.cells.length := lt_of_lt_of_le hp1 hdle
    have hpnot : p ∉ tdp.map Prod.snd := by
      intro hmem
      obtain ⟨y, hy, hya⟩ := List.mem_map.mp hmem
      have := (hdv y hy).1
      rw [hya] at this
      exact absurd (lt_of_le_of_lt this hp1) (lt_irrefl _)
    rw [hrfr p hp2 hpnot, hdrd p hp1, hkrd p hp]
  refine ⟨?_, hframe, ?_, ?_⟩
  · exact le_trans hkle (le_trans hdle hrle)
  · rw [hsel, hrk, hkeq, hdeq]
  · rw [hsel, hrd2, hkeq, hdeq]

/-- Claim C10: the selection phase never mutates its `DateCutoffResult`
input: in the heap model of Python lists, no pre-existing store cell is
written — in particular the `old` and `new` list objects read back
identical after `selectH`.  (Version records are values here because the
selection source contains no assignment to a version dict, so they are
trivially unchanged as well.) -/
theorem selection_does_not_mutate_input (s : Store) (oldPtr newPtr : Nat)
    (ho : oldPtr < s.cells.length) (hn : newPtr < s.cells.length) :
    readL (selectH s oldPtr newPtr).1 oldPtr = readL s oldPtr ∧
    readL (selectH s oldPtr newPtr).1 newPtr = readL s newPtr ∧
    (∀ p, p < s.cells.length →
      readL (selectH s oldPtr newPtr).1 p = readL s p) := by
  have h := selectH_master s oldPtr newPtr 0 ho
  exact ⟨h.2.1 oldPtr ho, h.2.1 newPtr hn, h.2.1⟩

/-- Witness for claim C10 at a concrete store: cell 0 holds the old list
`[v1]`, cell 1 the new list `[]`. -/
theorem selection_does_not_mutate_input_witness :
    readL (selectH { cells := [[wDemoV1], []] } 0 1).1 0
        = readL { cells := [[wDemoV1], []] } 0 ∧
    readL (selectH { cells := [[wDemoV1], []] } 0 1).1 1
        = readL { cells := [[wDemoV1], []] } 1 := by
  have h := selection_does_not_mutate_input { cells := [[wDemoV1], []] } 0 1
    (by decide) (by decide)
  exact ⟨h.1, h.2.1⟩

/-- Claim C9: running the selection phase twice on the same unchanged
`DateCutoffResult` yields identical toKeep/toDelete mappings (as values):
the first run does not disturb its input, so the second run dereferences
to the same pure `selectDeletions` result. -/
theorem selection_idempotent (s : Store) (oldPtr newPtr : Nat) (c : Int)
    (ho : oldPtr < s.cells.length) (hn : newPtr < s.cells.length) :
    readAssoc (selectH (selectH s oldPtr newPtr).1 oldPtr newPtr).1
        (selectH (selectH s oldPtr newPtr).1 oldPtr newPtr).2.1
      = readAssoc (selectH s oldPtr newPtr).1
          (selectH s oldPtr newPtr).2.1 ∧
    readAssoc (selectH (selectH s oldPtr newPtr).1 oldPtr newPtr).1
        (selectH (selectH s oldPtr newPtr).1 oldPtr newPtr).2.2
      = readAssoc (selectH s oldPtr newPtr).1
          (selectH s oldPtr newPtr).2.2 ∧
    readAssoc (selectH s oldPtr newPtr).1 (selectH s oldPtr newPtr).2.1
      = (selectDeletions
          { cutoff := c, old := readL s oldPtr,
            new := readL s newPtr }).1 ∧
    readAssoc (selectH s oldPtr newPtr).1 (selectH s oldPtr newPtr).2.2
      = (selectDeletions
          { cutoff := c, old := readL s oldPtr,
            new := readL s newPtr }).2 := by
  obtain ⟨h1le, h1fr, h1k, h1d⟩ := selectH_master s oldPtr newPtr c ho
  obtain ⟨h2le, h2fr, h2k, h2d⟩ := selectH_master
    (selectH s oldPtr newPtr).1 oldPtr newPtr c (lt_of_lt_of_le ho h1le)
  rw [h1fr oldPtr ho, h1fr newPtr hn] at h2k h2d
  exact ⟨h2k.trans h1k.symm, h2d.trans h1d.symm, h1k, h1d⟩

/-- Witness for claim C9 at a concrete store. -/
theorem selection_idempotent_witness :
    readAssoc (selectH (selectH { cells := [[wDemoV1], []] } 0 1).1 0 1).1
        (selectH (selectH { cells := [[wDemoV1], []] } 0 1).1 0 1).2.1
      = readAssoc (selectH { cells := [[wDemoV1], []] } 0 1).1
          (selectH { cells := [[wDemoV1], []] } 0 1).2.1 ∧
    readAssoc (selectH (selectH { cells := [[wDemoV1], []] } 0 1).1 0 1).1
        (selectH (selectH { cells := [[wDemoV1], []] } 0 1).1 0 1).2.2
      = readAssoc (selectH { cells := [[wDemoV1], []] } 0 1).1
          (selectH { cells := [[wDemoV1], []] } 0 1).2.2 := by
  have h := selection_idempotent { cells := [[wDemoV1], []] } 0 1 300
    (by decide) (by decide)
  exact ⟨h.1, h.2.1⟩

/-- Witness for claim C3 at a concrete input (two versions, cutoff
`now`): the partition result satisfies the cutoff equation and the
no-duplicates/no-omissions permutation. -/
theorem apply_date_cutoff_spec_witness :
    (apply_date_cutoff 1000 [wDemoV2, wDemoV1] 0).cutoff
      = 1000 - 0 * secondsPerDay ∧
    ((apply_date_cutoff 1000 [wDemoV2, wDemoV1] 0).old
      ++ (apply_date_cutoff 1000 [wDemoV2, wDemoV1] 0).new).Perm
        [wDemoV2, wDemoV1] := by
  have h := apply_date_cutoff_spec 1000 [wDemoV2, wDemoV1] 0
  exact ⟨h.1, h.2.2.2.2.2.2.2.2.2⟩

/-- Witness for claim C5 at a concrete input: a dry run with `--yes`
reports the confirmed candidates as deleted and leaves the cache
untouched. -/
theorem dryrun_never_deletes_witness :
    (deleteOldVersionsRun true cScenE none true (fun _ => true)
        (fun _ => true)).deleted
      = confirmedFrom true (fun _ => true) 0
          (flattenTD (selectDeletions cScenE).2) ∧
    (deleteOldVersionsRun true cScenE none true (fun _ => true)
        (fun _ => true)).cacheCleared = false := by
  have h := dryrun_never_deletes cScenE none true (fun _ => true)
    (fun _ => true)
  exact ⟨h.2.1, h.2.2⟩
